import Mathlib

/-!
# Mx runtime library (`src/main/resources/builtin.c`)

A shallow embedding of the C runtime that compiled Mx programs link against,
and the properties of its length-tagged strings.

## Memory model

* A byte is a `Fin 256`.  A memory cell is an `Option Byte`; `none` is a cell
  that was allocated but never written (its content is indeterminate).
* A block is the list of cells of one `malloc` result.
* A pointer is a block together with a (possibly out-of-range) integer offset
  into it.  Pointer arithmetic only moves the offset; every load and store
  checks the offset against the block and yields `none` when it falls outside
  (or, for a load, when the cell was never written).  `none` therefore stands
  for undefined behaviour of the C program.
* `int` is 32 bits wide, two's complement; arithmetic that can leave the range
  is wrapped with `wrap32`.
* Whether plain `char` is signed is left to the C implementation, so every
  function that orders `char` values or widens one to `int` takes the
  signedness as its first argument (`true`: signed, as on x86; `false`:
  unsigned, as on ARM and RISC-V).
-/

namespace MxBuiltin

/-! ## Machine integers and bytes -/

abbrev Byte := Fin 256

abbrev Cell := Option Byte

abbrev Block := List Cell

def INT_MAX : Int := 2147483647

def INT_MIN : Int := -2147483648

/-- Two's complement reduction of an integer to the range of a 32-bit `int`. -/
def wrap32 (x : Int) : Int := (x + 2147483648) % 4294967296 - 2147483648

/-- Conversion of an `int` to a `char`: the low eight bits. -/
def toByte (x : Int) : Byte := ⟨(x % 256).toNat, by omega⟩

/-- Value of a `char` object holding byte `b` once promoted to `int`:
sign-extended when plain `char` is signed, zero-extended otherwise. -/
def charVal (sc : Bool) (b : Byte) : Int :=
  if sc && decide (128 ≤ b.val) then (b.val : Int) - 256 else (b.val : Int)

/-! ## Pointers, loads and stores -/

structure Ptr where
  blk : Block
  off : Int
deriving DecidableEq

/-- Pointer arithmetic `p + k`. -/
def Ptr.add (p : Ptr) (k : Int) : Ptr := { p with off := p.off + k }

/-- Read of `p[i]`. -/
def Ptr.load (p : Ptr) (i : Int) : Option Byte :=
  if 0 ≤ p.off + i then (p.blk[(p.off + i).toNat]?).join else none

/-- Write `p[i] = b`; the result is `p` over the updated block. -/
def Ptr.store (p : Ptr) (i : Int) (b : Byte) : Option Ptr :=
  if 0 ≤ p.off + i ∧ (p.off + i).toNat < p.blk.length then
    some { p with blk := p.blk.set (p.off + i).toNat (some b) }
  else none

/-- The cells from `p` to the end of its block, the memory a loop that
only increments `p` can see. -/
def Ptr.view (p : Ptr) : List Cell :=
  if 0 ≤ p.off then p.blk.drop p.off.toNat else []

/-- Read of `*((int *) (p + i))`, little-endian. -/
def Ptr.load32 (p : Ptr) (i : Int) : Option Int := do
  let b0 ← p.load i
  let b1 ← p.load (i + 1)
  let b2 ← p.load (i + 2)
  let b3 ← p.load (i + 3)
  some (wrap32 ((b0.val : Int) + 256 * b1.val + 65536 * b2.val + 16777216 * b3.val))

/-- Write `*((int *) (p + i)) = v`, little-endian. -/
def Ptr.store32 (p : Ptr) (i : Int) (v : Int) : Option Ptr := do
  let p ← p.store i (toByte v)
  let p ← p.store (i + 1) (toByte (v / 256))
  let p ← p.store (i + 2) (toByte (v / 65536))
  p.store (i + 3) (toByte (v / 16777216))

/-- Library `malloc` called with an `int` argument: a fresh block of `n`
unwritten cells.  A negative argument converts to a size no allocator can
serve, so the call fails; a request that fits is assumed to succeed. -/
def malloc (n : Int) : Option Ptr :=
  if 0 ≤ n then some ⟨List.replicate n.toNat none, 0⟩ else none

/-! ## `_to_str_` -/

/-- The loop `while (i) { *--s = i % 10 + '0'; i /= 10; }`.  The first argument
bounds the number of iterations; `_to_str_fill` passes `|i|`, which the loop
never exhausts because `|i / 10| < |i|` for `i ≠ 0`. -/
def to_str_digits : Nat → Int → Ptr → Option Ptr
  | 0, _, s => some s
  | fuel + 1, i, s =>
    if i = 0 then some s
    else do
      let s ← (s.add (-1)).store 0 (toByte (Int.tmod i 10 + 48))
      to_str_digits fuel (Int.tdiv i 10) s

/-- Lines 41 to 50 of `_to_str_`: everything up to, not including, the write of
the length header.  Returns the pointers `s` and `t`. -/
def _to_str_fill (i : Int) : Option (Ptr × Ptr) := do
  let m ← malloc 15
  let t ← ((m.add 15).add (-1)).store 0 0
  let s := t
  let neg := decide (i < 0)
  let i := if neg then wrap32 (-i) else i
  let s ← if i = 0 then (s.add (-1)).store 0 48 else some s
  let s ← to_str_digits i.natAbs i s
  let s ← if neg then (s.add (-1)).store 0 45 else some s
  some (s, t)

/-- The function `char *_to_str_(int i)`. -/
def _to_str_ (i : Int) : Option Ptr := do
  let (s, t) ← _to_str_fill i
  let s ← s.store32 (-4) (t.off - s.off)
  some s

/-! ## C strings -/

/-- The bytes before the first terminator in a run of cells, or `none` when the
run ends or meets an unwritten cell before any terminator. -/
def cstr_of : List Cell → Option (List Byte)
  | [] => none
  | none :: _ => none
  | some b :: rest => if b = 0 then some [] else (cstr_of rest).map (fun bs => b :: bs)

/-- The payload of the null-terminated string at `p`. -/
def Ptr.cstr (p : Ptr) : Option (List Byte) := cstr_of p.view

/-! ## `_malloc_a_`, `_s_length_`, `_s_ord_`, `_a_size_` -/

/-- The function `void *_malloc_a_(int size, int length)`. -/
def _malloc_a_ (size length : Int) : Option Ptr := do
  let ret ← malloc (wrap32 (size + 4))
  let ret ← ret.store32 0 length
  some (ret.add 4)

/-- The function `int _s_length_(char *s)`. -/
def _s_length_ (s : Ptr) : Option Int := s.load32 (-4)

/-- The function `int _s_ord_(char *s, int index)`: the `char` at `s[index]`
converted to `int`. -/
def _s_ord_ (sc : Bool) (s : Ptr) (index : Int) : Option Int :=
  (s.load index).map (charVal sc)

/-- The function `int _a_size_(void *a)`. -/
def _a_size_ (a : Ptr) : Option Int := a.load32 (-4)

/-! ## `_s_literal_` -/

/-- Library `strcpy(dst, src)`, with `src` given by the cells it can read:
copies up to and including the first zero byte, to `dst[k]`, `dst[k+1]`, ... -/
def strcpy_from (dst : Ptr) : Int → List Cell → Option Ptr
  | _, [] => none
  | _, none :: _ => none
  | k, some b :: rest => do
    let dst ← dst.store k b
    if b = 0 then some dst else strcpy_from dst (k + 1) rest

/-- Library `strcpy(dst, src)`. -/
def strcpy (dst src : Ptr) : Option Ptr := strcpy_from dst 0 src.view

/-- The function `char *_s_literal_(char *s, int l)`. -/
def _s_literal_ (s : Ptr) (l : Int) : Option Ptr := do
  let m ← malloc (wrap32 (l + 5))
  let ret := m.add 4
  let ret ← strcpy ret s
  let ret ← ret.store32 (-4) l
  some ret

/-! ## `_s_parse_` -/

/-- Predicate `isspace` of the C locale. -/
def isspace (b : Byte) : Bool := b.val = 32 || (decide (9 ≤ b.val) && decide (b.val ≤ 13))

/-- Predicate `isdigit`. -/
def isdigit (b : Byte) : Bool := decide (48 ≤ b.val) && decide (b.val ≤ 57)

/-- The digits of a `%d` conversion once the first one has been seen: consumes
digits, stops at (and needs to read) the first byte that is not one. -/
def scan_digits : Nat → List Cell → Option Nat
  | _, [] => none
  | _, none :: _ => none
  | acc, some b :: rest =>
    if isdigit b then scan_digits (acc * 10 + (b.val - 48)) rest else some acc

/-- A non-empty run of digits; `none` when the first byte is not a digit (no
conversion takes place). -/
def scan_number : List Cell → Option Nat
  | some b :: rest => if isdigit b then scan_digits (b.val - 48) rest else none
  | _ => none

/-- Library `sscanf(s, "%d", &i)` followed by a read of `i`: leading white space
is skipped, then an optional sign and a non-empty run of decimal digits is
converted.  `none` when no conversion takes place (`i` stays unwritten), when
the value does not fit an `int`, or when the scan leaves the readable cells. -/
def sscanf_d : List Cell → Option Int
  | [] => none
  | none :: _ => none
  | some b :: rest =>
    if isspace b then sscanf_d rest
    else
      let v : Option Int :=
        if b.val = 45 then (scan_number rest).map (fun n => - (n : Int))
        else if b.val = 43 then (scan_number rest).map (fun n => (n : Int))
        else (scan_number (some b :: rest)).map (fun n => (n : Int))
      v.bind (fun x => if INT_MIN ≤ x ∧ x ≤ INT_MAX then some x else none)

/-- The function `int _s_parse_(char *s)`. -/
def _s_parse_ (s : Ptr) : Option Int := sscanf_d s.view

/-! ## `_s_substring_` and `_s_concatenate_` -/

/-- The loop `for (; i < bound; i++) ret[i] = s[i];` with `n` iterations left
(`n` is `bound - i`, or `0` when that is negative). -/
def copy_loop (s : Ptr) : Nat → Int → Ptr → Option Ptr
  | 0, _, ret => some ret
  | n + 1, i, ret => do
    let b ← s.load i
    let ret ← ret.store i b
    copy_loop s n (i + 1) ret

/-- The function `char *_s_substring_(char *s, int l, int r)`. -/
def _s_substring_ (s : Ptr) (l r : Int) : Option Ptr := do
  let length := wrap32 (r - l)
  let m ← malloc (wrap32 (5 + length))
  let ret := m.add 4
  let ret ← ret.store32 (-4) length
  let s := s.add l
  let ret ← copy_loop s length.toNat 0 ret
  let ret ← ret.store length 0
  some ret

/-- The function `char *_s_concatenate_(char *s, char *t)`. -/
def _s_concatenate_ (s t : Ptr) : Option Ptr := do
  let ls ← s.load32 (-4)
  let lt ← t.load32 (-4)
  let tot := wrap32 (lt + ls)
  let t := t.add (-ls)
  let m ← malloc (wrap32 (5 + tot))
  let ret := m.add 4
  let ret ← ret.store32 (-4) tot
  let ret ← copy_loop s ls.toNat 0 ret
  let i : Int := if 0 < ls then ls else 0
  let ret ← copy_loop t (tot - i).toNat i ret
  let ret ← ret.store tot 0
  some ret

/-! ## The six comparisons

Each C function is one loop over the two pointers advanced in step; the model
recurses over the two views, so a read past the end of a block or of an
unwritten cell ends the recursion with `none`. -/

/-- Loop of `_s_equal_`. -/
def equal_loop (sc : Bool) : List Cell → List Cell → Option Bool
  | some a :: s, some b :: t =>
    if charVal sc a ≠ charVal sc b then some false
    else if charVal sc a = 0 then some true
    else equal_loop sc s t
  | _, _ => none

/-- Loop of `_s_neq_`. -/
def neq_loop (sc : Bool) : List Cell → List Cell → Option Bool
  | some a :: s, some b :: t =>
    if charVal sc a ≠ charVal sc b then some true
    else if charVal sc a = 0 then some false
    else neq_loop sc s t
  | _, _ => none

/-- Loop of `_s_less_`. -/
def less_loop (sc : Bool) : List Cell → List Cell → Option Bool
  | some a :: s, some b :: t =>
    if charVal sc a < charVal sc b then some true
    else if charVal sc a > charVal sc b then some false
    else if charVal sc a = 0 then some false
    else less_loop sc s t
  | _, _ => none

/-- Loop of `_s_leq_`. -/
def leq_loop (sc : Bool) : List Cell → List Cell → Option Bool
  | some a :: s, some b :: t =>
    if charVal sc a < charVal sc b then some true
    else if charVal sc a > charVal sc b then some false
    else if charVal sc a = 0 then some true
    else leq_loop sc s t
  | _, _ => none

/-- Loop of `_s_greater_`. -/
def greater_loop (sc : Bool) : List Cell → List Cell → Option Bool
  | some a :: s, some b :: t =>
    if charVal sc a < charVal sc b then some false
    else if charVal sc a > charVal sc b then some true
    else if charVal sc a = 0 then some false
    else greater_loop sc s t
  | _, _ => none

/-- Loop of `_s_geq_`. -/
def geq_loop (sc : Bool) : List Cell → List Cell → Option Bool
  | some a :: s, some b :: t =>
    if charVal sc a < charVal sc b then some false
    else if charVal sc a > charVal sc b then some true
    else if charVal sc a = 0 then some true
    else geq_loop sc s t
  | _, _ => none

/-- The function `char _s_equal_(char *s, char *t)`. -/
def _s_equal_ (sc : Bool) (s t : Ptr) : Option Bool := equal_loop sc s.view t.view

/-- The function `char _s_neq_(char *s, char *t)`. -/
def _s_neq_ (sc : Bool) (s t : Ptr) : Option Bool := neq_loop sc s.view t.view

/-- The function `char _s_less_(char *s, char *t)`. -/
def _s_less_ (sc : Bool) (s t : Ptr) : Option Bool := less_loop sc s.view t.view

/-- The function `char _s_leq_(char *s, char *t)`. -/
def _s_leq_ (sc : Bool) (s t : Ptr) : Option Bool := leq_loop sc s.view t.view

/-- The function `char _s_greater_(char *s, char *t)`. -/
def _s_greater_ (sc : Bool) (s t : Ptr) : Option Bool := greater_loop sc s.view t.view

/-- The function `char _s_geq_(char *s, char *t)`. -/
def _s_geq_ (sc : Bool) (s t : Ptr) : Option Bool := geq_loop sc s.view t.view

/-! ## Specification vocabulary -/

/-- The four cells of a header word holding `n`. -/
def header (n : Int) : List Cell :=
  [some (toByte n), some (toByte (n / 256)), some (toByte (n / 65536)),
    some (toByte (n / 16777216))]

/-- A block holding the header `n` and then the string `bs` with its
terminator, as the constructing functions lay it out. -/
def tagged (n : Int) (bs : List Byte) : Ptr :=
  ⟨header n ++ (bs.map some ++ [some 0]), 4⟩

/-- Pointer `p` is a null-terminated string with payload `bs`. -/
def CStr (p : Ptr) (bs : List Byte) : Prop := p.cstr = some bs

instance (p : Ptr) (bs : List Byte) : Decidable (CStr p bs) := by
  unfold CStr; infer_instance

/-- Pointer `p` is a string of the runtime with payload `bs`: a null-terminated
string whose header word at `p - 4` holds its character count, inside a block
that `malloc` returned for an `int` size (hence of at most `INT_MAX` bytes). -/
def TStr (p : Ptr) (bs : List Byte) : Prop :=
  (p.blk.length : Int) ≤ INT_MAX ∧ p.load32 (-4) = some (bs.length : Int) ∧ p.cstr = some bs

instance (p : Ptr) (bs : List Byte) : Decidable (TStr p bs) := by
  unfold TStr; infer_instance

/-- Standard decimal formatting of an integer (`printf("%d")`): a minus sign
exactly for negative numbers, then the decimal digits of the absolute value,
most significant first, `0` for zero. -/
def decimal (n : Int) : List Byte :=
  (if n < 0 then [(45 : Byte)] else []) ++
    (Nat.toDigits 10 n.natAbs).map (fun c => (Fin.ofNat c.toNat : Byte))

/-- Byte-wise lexicographic order on payloads with respect to the key `f` of a
byte: the first position where the strings differ decides, and a proper prefix
is smaller. -/
def lexLt (f : Byte → Int) : List Byte → List Byte → Bool
  | [], [] => false
  | [], _ :: _ => true
  | _ :: _, [] => false
  | a :: as, b :: bs =>
    if f a < f b then true else if f b < f a then false else lexLt f as bs

/-- Order of `strcmp`: byte-wise lexicographic with bytes as unsigned numbers. -/
def strcmpLt (as bs : List Byte) : Bool := lexLt (fun b => (b.val : Int)) as bs

/-- Common shape of the six comparison loops: the value returned when the
first byte is smaller, when it is greater, and when both strings end. -/
def cmp_loop (sc : Bool) (lt gt eq : Bool) : List Cell → List Cell → Option Bool
  | some a :: s, some b :: t =>
    if charVal sc a < charVal sc b then some lt
    else if charVal sc a > charVal sc b then some gt
    else if charVal sc a = 0 then some eq
    else cmp_loop sc lt gt eq s t
  | _, _ => none

/-- Result of a comparison loop on two payloads, from the order of the
terminated `char` sequences. -/
def cmpResult (sc : Bool) (lt gt eq : Bool) (as bs : List Byte) : Bool :=
  if lexLt (charVal sc) (as ++ [0]) (bs ++ [0]) then lt
  else if lexLt (charVal sc) (bs ++ [0]) (as ++ [0]) then gt
  else eq

/-! ## `_get_s_` -/

/-- The store phase of `scanf("%s", dst)`: bytes up to the next white space (or
the end of input) go to `dst[k]`, `dst[k+1]`, ..., then a terminator; the white
space byte stays in the input. -/
def scanf_store (dst : Ptr) : Int → List Byte → Option (Ptr × List Byte)
  | k, [] => (dst.store k 0).map (fun d => (d, []))
  | k, b :: rest =>
    if isspace b then (dst.store k 0).map (fun d => (d, b :: rest))
    else do
      let d ← dst.store k b
      scanf_store d (k + 1) rest

/-- Library `scanf("%s", dst)` on the standard input `input`: leading white
space is skipped; at the end of input nothing is stored. -/
def scanf_s (dst : Ptr) (input : List Byte) : Option (Ptr × List Byte) :=
  match input.dropWhile isspace with
  | [] => some (dst, [])
  | b :: rest => scanf_store dst 0 (b :: rest)

/-- Library `strlen(s)`. -/
def strlen (s : Ptr) : Option Int := s.cstr.map (fun bs => (bs.length : Int))

/-- The function `char *_get_s_()` run on the standard input `input`; returns
the string and the input left unread. -/
def _get_s_ (input : List Byte) : Option (Ptr × List Byte) := do
  let m ← malloc 261
  let s := m.add 4
  let (s, rest) ← scanf_s s input
  let n ← strlen s
  let s ← s.store32 (-4) (wrap32 n)
  some (s, rest)

/-! ## Arithmetic of `int` and `char` -/

theorem wrap32_of_range (x : Int) (h1 : -2147483648 ≤ x) (h2 : x ≤ 2147483647) :
    wrap32 x = x := by
  unfold wrap32; omega

theorem toByte_val (x : Int) : ((toByte x).val : Int) = x % 256 := by
  show (((x % 256).toNat : Nat) : Int) = x % 256
  omega

theorem decode_encode (v : Int) (h1 : -2147483648 ≤ v) (h2 : v ≤ 2147483647) :
    wrap32 (((toByte v).val : Int) + 256 * (toByte (v / 256)).val
      + 65536 * (toByte (v / 65536)).val + 16777216 * (toByte (v / 16777216)).val) = v := by
  simp only [toByte_val]
  unfold wrap32
  omega

theorem charVal_eq_zero (sc : Bool) (b : Byte) : charVal sc b = 0 ↔ b = 0 := by
  have hb := b.isLt
  unfold charVal
  constructor
  · intro h
    apply Fin.ext
    show b.val = 0
    split at h <;> omega
  · rintro rfl
    cases sc <;> simp

theorem charVal_inj (sc : Bool) (a b : Byte) : charVal sc a = charVal sc b ↔ a = b := by
  have ha := a.isLt
  have hb := b.isLt
  constructor
  · intro h
    apply Fin.ext
    unfold charVal at h
    cases sc <;> simp at h
    · omega
    · split at h <;> split at h <;> omega
  · rintro rfl; rfl

theorem charVal_unsigned (b : Byte) : charVal false b = (b.val : Int) := by
  simp [charVal]

theorem charVal_ascii (sc : Bool) (b : Byte) (h : b.val < 128) : charVal sc b = (b.val : Int) := by
  unfold charVal
  cases sc <;> simp
  omega

/-! ## Loads and stores inside a block -/

theorem load_mid (pre post : List Cell) (c : Cell) (off i : Int)
    (h : off + i = (pre.length : Int)) :
    Ptr.load ⟨pre ++ c :: post, off⟩ i = c := by
  unfold Ptr.load
  have hg : (pre ++ c :: post)[pre.length]? = some c := by
    rw [List.getElem?_append_right (Nat.le_refl _)]
    simp
  simp only [h, Int.toNat_ofNat, hg]
  simp

theorem store_mid (pre post : List Cell) (c : Cell) (off i : Int) (b : Byte)
    (h : off + i = (pre.length : Int)) :
    Ptr.store ⟨pre ++ c :: post, off⟩ i b = some ⟨pre ++ some b :: post, off⟩ := by
  unfold Ptr.store
  simp [h]

/-! ## Layout of a null-terminated string -/

theorem cstr_of_layout : ∀ (v : List Cell) (bs : List Byte), cstr_of v = some bs →
    ∃ rest, v = bs.map some ++ some 0 :: rest ∧ ∀ b ∈ bs, b ≠ 0
  | [], bs, h => by simp [cstr_of] at h
  | none :: v, bs, h => by simp [cstr_of] at h
  | some b :: v, bs, h => by
    simp only [cstr_of] at h
    by_cases hb : b = 0
    · simp only [hb, if_true, Option.some.injEq] at h
      subst h
      exact ⟨v, by simp [hb], by simp⟩
    · simp only [hb, if_false, Option.map_eq_some'] at h
      obtain ⟨bs', h1, rfl⟩ := h
      obtain ⟨rest, hv, hnz⟩ := cstr_of_layout v bs' h1
      refine ⟨rest, by simp [hv], ?_⟩
      intro x hx
      rcases List.mem_cons.mp hx with rfl | hx
      · exact hb
      · exact hnz x hx

theorem cstr_of_append (bs : List Byte) (rest : List Cell) (h : ∀ b ∈ bs, b ≠ 0) :
    cstr_of (bs.map some ++ some 0 :: rest) = some bs := by
  induction bs with
  | nil => simp [cstr_of]
  | cons b bs ih =>
    have hb : b ≠ 0 := h b (List.mem_cons_self _ _)
    have ih' := ih (fun x hx => h x (List.mem_cons_of_mem _ hx))
    simp [cstr_of, hb, ih']

theorem CStr.layout {p : Ptr} {bs : List Byte} (h : CStr p bs) :
    ∃ pre rest, p = ⟨pre ++ (bs.map some ++ some 0 :: rest), (pre.length : Int)⟩ ∧
      ∀ b ∈ bs, b ≠ 0 := by
  obtain ⟨blk, off⟩ := p
  unfold CStr Ptr.cstr Ptr.view at h
  by_cases ho : 0 ≤ off
  · simp only [ho, if_true] at h
    obtain ⟨rest, hv, hnz⟩ := cstr_of_layout _ _ h
    refine ⟨blk.take off.toNat, rest, ?_, hnz⟩
    have hlen : off.toNat < blk.length := by
      by_contra hc
      have : blk.drop off.toNat = [] := List.drop_eq_nil_of_le (by omega)
      rw [this] at hv
      simp at hv
    have h1 : blk = blk.take off.toNat ++ (bs.map some ++ some 0 :: rest) := by
      rw [← hv, List.take_append_drop]
    have h2 : ((blk.take off.toNat).length : Int) = off := by
      rw [List.length_take]
      omega
    rw [h2, ← h1]
  · simp [ho, cstr_of] at h

theorem CStr.of_layout (pre rest : List Cell) (bs : List Byte) (h : ∀ b ∈ bs, b ≠ 0) :
    CStr ⟨pre ++ (bs.map some ++ some 0 :: rest), (pre.length : Int)⟩ bs := by
  unfold CStr Ptr.cstr Ptr.view
  simp [cstr_of_append bs rest h]

/-! ## The comparison loops on strings -/

theorem lexLt_irrefl (f : Byte → Int) : ∀ xs : List Byte, lexLt f xs xs = false
  | [] => rfl
  | x :: xs => by simp [lexLt, lexLt_irrefl f xs]

theorem lexLt_trans (f : Byte → Int) : ∀ xs ys zs : List Byte,
    lexLt f xs ys = true → lexLt f ys zs = true → lexLt f xs zs = true
  | [], [], _, h, _ => by simp [lexLt] at h
  | [], _ :: _, [], _, h => by simp [lexLt] at h
  | [], _ :: _, _ :: _, _, _ => by simp [lexLt]
  | _ :: _, [], _, h, _ => by simp [lexLt] at h
  | _ :: _, _ :: _, [], _, h => by simp [lexLt] at h
  | x :: xs, y :: ys, z :: zs, h1, h2 => by
    simp only [lexLt] at h1 h2 ⊢
    have ih := lexLt_trans f xs ys zs
    split_ifs at h1 h2 ⊢ <;> first | rfl | omega | (exact ih h1 h2)

theorem lexLt_asymm (f : Byte → Int) : ∀ xs ys : List Byte,
    lexLt f xs ys = true → lexLt f ys xs = false
  | [], [], h => by simp [lexLt] at h
  | [], _ :: _, _ => by simp [lexLt]
  | _ :: _, [], h => by simp [lexLt] at h
  | x :: xs, y :: ys, h => by
    simp only [lexLt] at h ⊢
    have ih := lexLt_asymm f xs ys
    split_ifs at h ⊢ <;> first | rfl | omega | (exact ih h)

theorem lexLt_total (f : Byte → Int) (hf : ∀ a b, f a = f b → a = b) : ∀ xs ys : List Byte,
    lexLt f xs ys = false → lexLt f ys xs = false → xs = ys
  | [], [], _, _ => rfl
  | [], _ :: _, h, _ => by simp [lexLt] at h
  | _ :: _, [], _, h => by simp [lexLt] at h
  | x :: xs, y :: ys, h1, h2 => by
    simp only [lexLt] at h1 h2
    have ih := lexLt_total f hf xs ys
    split_ifs at h1 h2
    have hxy : x = y := hf x y (by omega)
    rw [hxy, ih h1 h2]

theorem zero_not_mem_ne {bs : List Byte} (h : ∀ b ∈ bs, b ≠ 0) (b : Byte) (bs' : List Byte)
    (e : bs = b :: bs') : b ≠ 0 ∧ ∀ x ∈ bs', x ≠ 0 := by
  subst e
  exact ⟨h b (List.mem_cons_self _ _), fun x hx => h x (List.mem_cons_of_mem _ hx)⟩

theorem less_loop_spec (sc : Bool) : ∀ (as bs : List Byte) (ra rb : List Cell),
    (∀ b ∈ as, b ≠ 0) → (∀ b ∈ bs, b ≠ 0) →
    less_loop sc (as.map some ++ some 0 :: ra) (bs.map some ++ some 0 :: rb)
      = some (lexLt (charVal sc) (as ++ [0]) (bs ++ [0]))
  | [], [], ra, rb, _, _ => by
    simp [less_loop, lexLt, (charVal_eq_zero sc 0).mpr rfl]
  | [], b :: bs, ra, rb, _, hb => by
    have hb0 := (zero_not_mem_ne hb b bs rfl).1
    have h0 : charVal sc 0 = 0 := (charVal_eq_zero sc 0).mpr rfl
    have hne : charVal sc b ≠ 0 := fun h => hb0 ((charVal_eq_zero sc b).mp h)
    simp only [List.map_nil, List.nil_append, List.map_cons, List.cons_append, less_loop, lexLt, h0]
    split_ifs <;> first | rfl | omega
  | a :: as, [], ra, rb, ha, _ => by
    have ha0 := (zero_not_mem_ne ha a as rfl).1
    have h0 : charVal sc 0 = 0 := (charVal_eq_zero sc 0).mpr rfl
    have hne : charVal sc a ≠ 0 := fun h => ha0 ((charVal_eq_zero sc a).mp h)
    simp only [List.map_nil, List.nil_append, List.map_cons, List.cons_append, less_loop, lexLt, h0]
    split_ifs <;> first | rfl | omega
  | a :: as, b :: bs, ra, rb, ha, hb => by
    have ha0 := zero_not_mem_ne ha a as rfl
    have hb0 := zero_not_mem_ne hb b bs rfl
    have hne : charVal sc a ≠ 0 := fun h => ha0.1 ((charVal_eq_zero sc a).mp h)
    have ih := less_loop_spec sc as bs ra rb ha0.2 hb0.2
    simp only [List.map_cons, List.cons_append, less_loop, lexLt]
    split_ifs <;> first | rfl | omega | exact ih

theorem greater_loop_spec (sc : Bool) : ∀ (as bs : List Byte) (ra rb : List Cell),
    (∀ b ∈ as, b ≠ 0) → (∀ b ∈ bs, b ≠ 0) →
    greater_loop sc (as.map some ++ some 0 :: ra) (bs.map some ++ some 0 :: rb)
      = some (lexLt (charVal sc) (bs ++ [0]) (as ++ [0]))
  | [], [], ra, rb, _, _ => by
    simp [greater_loop, lexLt, (charVal_eq_zero sc 0).mpr rfl]
  | [], b :: bs, ra, rb, _, hb => by
    have hb0 := (zero_not_mem_ne hb b bs rfl).1
    have h0 : charVal sc 0 = 0 := (charVal_eq_zero sc 0).mpr rfl
    have hne : charVal sc b ≠ 0 := fun h => hb0 ((charVal_eq_zero sc b).mp h)
    simp only [List.map_nil, List.nil_append, List.map_cons, List.cons_append, greater_loop,
      lexLt, h0]
    split_ifs <;> first | rfl | omega
  | a :: as, [], ra, rb, ha, _ => by
    have ha0 := (zero_not_mem_ne ha a as rfl).1
    have h0 : charVal sc 0 = 0 := (charVal_eq_zero sc 0).mpr rfl
    have hne : charVal sc a ≠ 0 := fun h => ha0 ((charVal_eq_zero sc a).mp h)
    simp only [List.map_nil, List.nil_append, List.map_cons, List.cons_append, greater_loop,
      lexLt, h0]
    split_ifs <;> first | rfl | omega
  | a :: as, b :: bs, ra, rb, ha, hb => by
    have ha0 := zero_not_mem_ne ha a as rfl
    have hb0 := zero_not_mem_ne hb b bs rfl
    have hne : charVal sc a ≠ 0 := fun h => ha0.1 ((charVal_eq_zero sc a).mp h)
    have ih := greater_loop_spec sc as bs ra rb ha0.2 hb0.2
    simp only [List.map_cons, List.cons_append, greater_loop, lexLt]
    split_ifs <;> first | rfl | omega | exact ih

theorem equal_loop_spec (sc : Bool) : ∀ (as bs : List Byte) (ra rb : List Cell),
    (∀ b ∈ as, b ≠ 0) → (∀ b ∈ bs, b ≠ 0) →
    equal_loop sc (as.map some ++ some 0 :: ra) (bs.map some ++ some 0 :: rb)
      = some (decide (as = bs))
  | [], [], ra, rb, _, _ => by
    simp [equal_loop, (charVal_eq_zero sc 0).mpr rfl]
  | [], b :: bs, ra, rb, _, hb => by
    have hb0 := (zero_not_mem_ne hb b bs rfl).1
    have hne : charVal sc 0 ≠ charVal sc b := fun h => hb0 ((charVal_inj sc 0 b).mp h).symm
    simp [equal_loop, hne]
  | a :: as, [], ra, rb, ha, _ => by
    have ha0 := (zero_not_mem_ne ha a as rfl).1
    have hne : charVal sc a ≠ charVal sc 0 := fun h => ha0 ((charVal_inj sc a 0).mp h)
    simp [equal_loop, hne]
  | a :: as, b :: bs, ra, rb, ha, hb => by
    have ha0 := zero_not_mem_ne ha a as rfl
    have hb0 := zero_not_mem_ne hb b bs rfl
    have hne : charVal sc a ≠ 0 := fun h => ha0.1 ((charVal_eq_zero sc a).mp h)
    have ih := equal_loop_spec sc as bs ra rb ha0.2 hb0.2
    simp only [List.map_cons, List.cons_append, equal_loop]
    by_cases hab : a = b
    · subst hab
      simp [hne, ih]
    · have hc : charVal sc a ≠ charVal sc b := fun h => hab ((charVal_inj sc a b).mp h)
      simp [hc, hab]

/-- On terminated payloads the order of the loops is the order of `strcmp`
as soon as every byte has the same key as its unsigned value. -/
theorem lexLt_terminated (f : Byte → Int) (h0 : f 0 = 0) : ∀ as bs : List Byte,
    (∀ b ∈ as, b ≠ 0) → (∀ b ∈ bs, b ≠ 0) →
    (∀ b ∈ as, f b = (b.val : Int)) → (∀ b ∈ bs, f b = (b.val : Int)) →
    lexLt f (as ++ [0]) (bs ++ [0]) = strcmpLt as bs
  | [], [], _, _, _, _ => by simp [lexLt, strcmpLt]
  | [], b :: bs, _, hb, _, fb => by
    have hb0 := (zero_not_mem_ne hb b bs rfl).1
    have hv : b.val ≠ 0 := fun h => hb0 (Fin.ext h)
    have e := fb b (List.mem_cons_self _ _)
    simp only [List.nil_append, List.cons_append, lexLt, strcmpLt, h0, e]
    split_ifs <;> first | rfl | omega
  | a :: as, [], ha, _, fa, _ => by
    have ha0 := (zero_not_mem_ne ha a as rfl).1
    have hv : a.val ≠ 0 := fun h => ha0 (Fin.ext h)
    have e := fa a (List.mem_cons_self _ _)
    simp only [List.nil_append, List.cons_append, lexLt, strcmpLt, h0, e]
    split_ifs <;> first | rfl | omega
  | a :: as, b :: bs, ha, hb, fa, fb => by
    have ha0 := zero_not_mem_ne ha a as rfl
    have hb0 := zero_not_mem_ne hb b bs rfl
    have ea := fa a (List.mem_cons_self _ _)
    have eb := fb b (List.mem_cons_self _ _)
    have ih := lexLt_terminated f h0 as bs ha0.2 hb0.2
      (fun x hx => fa x (List.mem_cons_of_mem _ hx)) (fun x hx => fb x (List.mem_cons_of_mem _ hx))
    simp only [List.cons_append, lexLt, strcmpLt, ea, eb]
    unfold strcmpLt at ih
    split_ifs <;> first | rfl | exact ih

theorem s_less_eq {sc : Bool} {a b : Ptr} {as bs : List Byte} (ha : CStr a as) (hb : CStr b bs) :
    _s_less_ sc a b = some (lexLt (charVal sc) (as ++ [0]) (bs ++ [0])) := by
  obtain ⟨pa, ra, rfl, ha0⟩ := ha.layout
  obtain ⟨pb, rb, rfl, hb0⟩ := hb.layout
  simp [_s_less_, Ptr.view, less_loop_spec sc as bs ra rb ha0 hb0]

theorem s_greater_eq {sc : Bool} {a b : Ptr} {as bs : List Byte} (ha : CStr a as)
    (hb : CStr b bs) :
    _s_greater_ sc a b = some (lexLt (charVal sc) (bs ++ [0]) (as ++ [0])) := by
  obtain ⟨pa, ra, rfl, ha0⟩ := ha.layout
  obtain ⟨pb, rb, rfl, hb0⟩ := hb.layout
  simp [_s_greater_, Ptr.view, greater_loop_spec sc as bs ra rb ha0 hb0]

theorem s_equal_eq {sc : Bool} {a b : Ptr} {as bs : List Byte} (ha : CStr a as) (hb : CStr b bs) :
    _s_equal_ sc a b = some (decide (as = bs)) := by
  obtain ⟨pa, ra, rfl, ha0⟩ := ha.layout
  obtain ⟨pb, rb, rfl, hb0⟩ := hb.layout
  simp [_s_equal_, Ptr.view, equal_loop_spec sc as bs ra rb ha0 hb0]

/-! ## Headers, allocation and the copy loops -/

theorem store32_front (c0 c1 c2 c3 : Cell) (rest : List Cell) (v : Int) :
    Ptr.store32 ⟨c0 :: c1 :: c2 :: c3 :: rest, 4⟩ (-4) v = some ⟨header v ++ rest, 4⟩ := by
  simp [Ptr.store32, Ptr.store, header]

theorem load32_front (rest : List Cell) (v : Int) (h1 : -2147483648 ≤ v) (h2 : v ≤ 2147483647) :
    Ptr.load32 ⟨header v ++ rest, 4⟩ (-4) = some v := by
  simp only [Ptr.load32, Ptr.load, header]
  simp
  exact decode_encode v h1 h2

theorem layout_load (pre rest : List Cell) (bs : List Byte) (off i : Int) (j : Nat)
    (hj : j < bs.length) (h : off + i = (pre.length : Int) + j) :
    Ptr.load ⟨pre ++ (bs.map some ++ some 0 :: rest), off⟩ i = some (bs.get ⟨j, hj⟩) := by
  have e : (off + i).toNat = pre.length + j := by omega
  have h0 : 0 ≤ off + i := by omega
  unfold Ptr.load
  simp only [h0, if_true, e]
  rw [List.getElem?_append_right (by omega)]
  simp only [Nat.add_sub_cancel_left]
  rw [List.getElem?_append_left (by simpa using hj)]
  simp [hj]

theorem layout_load_end (pre rest : List Cell) (bs : List Byte) (off i : Int)
    (h : off + i = (pre.length : Int) + bs.length) :
    Ptr.load ⟨pre ++ (bs.map some ++ some 0 :: rest), off⟩ i = some 0 := by
  have := load_mid (pre ++ bs.map some) rest (some 0) off i (by simp; omega)
  simpa using this

theorem copy_loop_spec (s : Ptr) : ∀ (cs : List Byte) (i : Int) (pre post : List Cell) (off : Int),
    (∀ (j : Nat) (hj : j < cs.length), s.load (i + j) = some (cs.get ⟨j, hj⟩)) →
    off + i = (pre.length : Int) →
    copy_loop s cs.length i ⟨pre ++ (List.replicate cs.length none ++ post), off⟩
      = some ⟨pre ++ (cs.map some ++ post), off⟩
  | [], i, pre, post, off, _, _ => by simp [copy_loop]
  | c :: cs, i, pre, post, off, hs, ho => by
    have h0 : s.load i = some c := by simpa using hs 0 (by simp)
    have ih := copy_loop_spec s cs (i + 1) (pre ++ [some c]) post off
      (fun j hj => by
        have := hs (j + 1) (by simpa using hj)
        have e : i + ((j + 1 : Nat) : Int) = i + 1 + (j : Int) := by push_cast; ring
        rw [e] at this
        simpa using this)
      (by simp; omega)
    simp only [List.length_cons, copy_loop, h0, Option.bind_eq_bind, Option.some_bind,
      List.replicate_succ, List.cons_append]
    rw [store_mid pre _ none off i c ho]
    simp only [Option.some_bind]
    simpa using ih

theorem strcpy_from_spec : ∀ (bs : List Byte) (k : Int) (pre post rest : List Cell) (off : Int),
    (∀ b ∈ bs, b ≠ 0) → off + k = (pre.length : Int) →
    strcpy_from ⟨pre ++ (List.replicate bs.length none ++ none :: post), off⟩ k
        (bs.map some ++ some 0 :: rest)
      = some ⟨pre ++ (bs.map some ++ some 0 :: post), off⟩
  | [], k, pre, post, rest, off, _, ho => by
    simp only [List.length_nil, List.replicate_zero, List.map_nil, List.nil_append,
      strcpy_from, Option.bind_eq_bind]
    rw [store_mid pre _ none off k 0 ho]
    simp
  | b :: bs, k, pre, post, rest, off, hnz, ho => by
    have hb := zero_not_mem_ne hnz b bs rfl
    have ih := strcpy_from_spec bs (k + 1) (pre ++ [some b]) post rest off hb.2 (by simp; omega)
    simp only [List.length_cons, List.map_cons, List.cons_append, strcpy_from,
      Option.bind_eq_bind]
    rw [List.replicate_succ, List.cons_append, store_mid pre _ none off k b ho]
    simp only [Option.some_bind, hb.1, if_false]
    simpa using ih

theorem malloc_block (k : Nat) (n : Int) (h : n = (k : Int) + 5) :
    malloc n = some ⟨none :: none :: none :: none :: (List.replicate k none ++ [none]), 0⟩ := by
  subst h
  have h0 : 0 ≤ (k : Int) + 5 := by omega
  have e : ((k : Int) + 5).toNat = k + 1 + 4 := by omega
  simp only [malloc, h0, if_true, e, List.replicate_succ]
  rw [← List.replicate_succ, List.replicate_succ']

/-! ## What the constructing functions return -/

theorem s_literal_spec {s : Ptr} {bs : List Byte} (hs : CStr s bs)
    (hb : (bs.length : Int) + 5 ≤ 2147483647) :
    _s_literal_ s bs.length = some (tagged bs.length bs) := by
  obtain ⟨pre, rest, rfl, hnz⟩ := hs.layout
  have hw : wrap32 ((bs.length : Int) + 5) = (bs.length : Int) + 5 :=
    wrap32_of_range _ (by omega) hb
  have hcp := strcpy_from_spec bs 0 [none, none, none, none] [] rest 4 hnz (by simp)
  simp only [_s_literal_, hw, malloc_block bs.length _ rfl, Option.bind_eq_bind,
    Option.some_bind, Ptr.add, strcpy, Ptr.view]
  simp only [Int.zero_add] at hcp ⊢
  have hv : (if (0 : Int) ≤ (pre.length : Int) then
      List.drop (pre.length : Int).toNat (pre ++ (bs.map some ++ some 0 :: rest)) else [])
      = bs.map some ++ some 0 :: rest := by simp
  rw [hv]
  simp only [List.cons_append, List.nil_append] at hcp
  rw [hcp]
  simp only [Option.some_bind, store32_front]
  rfl

theorem s_substring_spec {s : Ptr} {bs : List Byte} (hs : CStr s bs) (l r : Int)
    (h0 : 0 ≤ l) (h1 : l ≤ r) (h2 : r ≤ (bs.length : Int)) (h3 : r - l + 5 ≤ 2147483647) :
    _s_substring_ s l r = some (tagged (r - l) ((bs.drop l.toNat).take (r - l).toNat)) := by
  obtain ⟨pre, rest, rfl, hnz⟩ := hs.layout
  have hw1 : wrap32 (r - l) = r - l := wrap32_of_range _ (by omega) (by omega)
  have hw2 : wrap32 (5 + (r - l)) = 5 + (r - l) := wrap32_of_range _ (by omega) (by omega)
  have hlen : ((bs.drop l.toNat).take (r - l).toNat).length = (r - l).toNat := by
    rw [List.length_take, List.length_drop]; omega
  generalize hcs : (bs.drop l.toNat).take (r - l).toNat = cs at hlen
  have hloads : ∀ (j : Nat) (hj : j < cs.length),
      (Ptr.add ⟨pre ++ (bs.map some ++ some 0 :: rest), (pre.length : Int)⟩ l).load (0 + (j : Int))
        = some (cs.get ⟨j, hj⟩) := by
    intro j hj
    have hj' : l.toNat + j < bs.length := by omega
    have := layout_load pre rest bs ((pre.length : Int) + l) (0 + (j : Int)) (l.toNat + j) hj'
      (by push_cast; omega)
    rw [Ptr.add, this]
    subst hcs
    simp
  have hcp := copy_loop_spec _ cs 0 (header (r - l)) [none] 4 hloads (by simp [header])
  have hm := malloc_block cs.length (5 + (r - l)) (by omega)
  simp only [_s_substring_, hw1, hw2, hm, Option.bind_eq_bind, Option.some_bind, Ptr.add,
    Int.zero_add, store32_front]
  rw [← hlen]
  simp only [Ptr.add] at hcp
  rw [hcp]
  simp only [Option.some_bind]
  have hst := store_mid (header (r - l) ++ cs.map some) [] none 4 (r - l) 0
    (by simp [header]; omega)
  simp only [List.append_assoc] at hst
  rw [hst]
  rfl

/-- Rewriting form of `Option.some_bind`, used where unfolding the continuation
would be costly. -/
theorem bind_some_eq {α β : Type} (a : α) (f : α → Option β) : (some a).bind f = f a :=
  congrArg f (Eq.refl a)

theorem bind_none_eq {α β : Type} (f : α → Option β) : (none : Option α).bind f = none := by
  simp

theorem s_concatenate_aux (s t : Ptr) (bs bt : List Byte) (x y : Int)
    (hx : x = (bs.length : Int)) (hy : y = (bt.length : Int))
    (hs : CStr s bs) (ht : CStr t bt)
    (hls : s.load32 (-4) = some x) (hlt : t.load32 (-4) = some y)
    (hb : x + y + 5 ≤ 2147483647) :
    _s_concatenate_ s t = some (tagged (x + y) (bs ++ bt)) := by
  obtain ⟨ps, rs, rfl, hnzs⟩ := hs.layout
  obtain ⟨pt, rt, rfl, hnzt⟩ := ht.layout
  have hw1 : wrap32 (y + x) = x + y := by
    rw [wrap32_of_range _ (by omega) (by omega)]; omega
  have hw2 : wrap32 (5 + (x + y)) = 5 + (x + y) :=
    wrap32_of_range _ (by omega) (by omega)
  have hm := malloc_block (bs.length + bt.length) (5 + (x + y)) (by push_cast; omega)
  have hi : (if 0 < x then x else 0) = x := by
    split_ifs <;> omega
  have hn1 : x.toNat = bs.length := by omega
  have hn2 : (x + y - x).toNat = bt.length := by omega
  have hcp1 := copy_loop_spec ⟨ps ++ (bs.map some ++ some 0 :: rs), (ps.length : Int)⟩ bs 0
    (header (x + y)) (List.replicate bt.length none ++ [none]) 4
    (fun j hj => layout_load ps rs bs _ _ j hj (by omega)) (by simp [header])
  have hcp2 := copy_loop_spec
    (Ptr.add ⟨pt ++ (bt.map some ++ some 0 :: rt), (pt.length : Int)⟩ (-x)) bt
    x (header (x + y) ++ bs.map some) [none] 4
    (fun j hj => by
      simp only [Ptr.add]
      exact layout_load pt rt bt _ _ j hj (by omega))
    (by simp [header]; omega)
  have hst := store_mid (header (x + y) ++ (bs ++ bt).map some) [] none 4
    (x + y) 0 (by simp [header]; omega)
  simp only [_s_concatenate_, hls, hlt, hw1, hw2, hm, hi, hn1, hn2, Option.bind_eq_bind,
    bind_some_eq, Ptr.add, Int.zero_add, store32_front, List.replicate_add,
    List.append_assoc]
  rw [hcp1]
  simp only [bind_some_eq]
  simp only [Ptr.add, List.append_assoc] at hcp2
  rw [hcp2]
  simp only [bind_some_eq]
  simp only [List.map_append, List.append_assoc] at hst
  rw [hst]
  simp [tagged]

theorem s_concatenate_spec {s t : Ptr} {bs bt : List Byte} (hs : CStr s bs) (ht : CStr t bt)
    (hls : s.load32 (-4) = some (bs.length : Int)) (hlt : t.load32 (-4) = some (bt.length : Int))
    (hb : (bs.length : Int) + bt.length + 5 ≤ 2147483647) :
    _s_concatenate_ s t = some (tagged ((bs.length : Int) + bt.length) (bs ++ bt)) :=
  s_concatenate_aux s t bs bt _ _ rfl rfl hs ht hls hlt hb

/-! ## Strings laid out by `tagged` -/

theorem tagged_cstr (n : Int) (bs : List Byte) (h : ∀ b ∈ bs, b ≠ 0) : CStr (tagged n bs) bs :=
  CStr.of_layout (header n) [] bs h

theorem tagged_load32 (n : Int) (bs : List Byte) (h1 : -2147483648 ≤ n) (h2 : n ≤ 2147483647) :
    (tagged n bs).load32 (-4) = some n :=
  load32_front _ n h1 h2

theorem tagged_load (n : Int) (bs : List Byte) (j : Nat) (hj : j < bs.length) :
    (tagged n bs).load j = some (bs.get ⟨j, hj⟩) :=
  layout_load (header n) [] bs 4 j j hj (by simp [header])

theorem tagged_load_end (n : Int) (bs : List Byte) :
    (tagged n bs).load bs.length = some 0 :=
  layout_load_end (header n) [] bs 4 bs.length (by simp [header])

theorem tagged_tstr (bs : List Byte) (h : ∀ b ∈ bs, b ≠ 0)
    (hb : (bs.length : Int) + 5 ≤ 2147483647) : TStr (tagged bs.length bs) bs := by
  refine ⟨?_, tagged_load32 _ _ (by omega) (by omega), tagged_cstr _ _ h⟩
  simp only [tagged, header, INT_MAX, List.length_append, List.length_cons, List.length_map,
    List.length_nil]
  push_cast
  omega

/-- A string of the runtime leaves room for its header and terminator below
`INT_MAX`. -/
theorem TStr.bound {p : Ptr} {bs : List Byte} (h : TStr p bs) :
    (bs.length : Int) + 5 ≤ 2147483647 := by
  obtain ⟨hlen, hl, hc⟩ := h
  obtain ⟨pre, rest, rfl, _⟩ := CStr.layout hc
  have h4 : 4 ≤ pre.length := by
    by_contra hc4
    have : Ptr.load ⟨pre ++ (bs.map some ++ some 0 :: rest), (pre.length : Int)⟩ (-4) = none := by
      simp only [Ptr.load]
      rw [if_neg (by omega)]
    simp [Ptr.load32, this] at hl
  simp only [INT_MAX, List.length_append, List.length_cons, List.length_map] at hlen
  push_cast at hlen
  omega

/-! ## `_to_str_` and `_s_parse_` at the most negative `int` -/

/-- C1, the code at `n = -2147483648`: standard formatting gives `-2147483648`,
but `i = -i` wraps back to `-2147483648`, so every `i % 10` is negative and the
digit loop writes bytes below `'0'`: the buffer holds `-./,),(-*,(` when the
header is about to be written.  That string starts at offset 3 of the 15-byte
block, so the header write at offset -1 leaves the block and `_to_str_` has no
defined result. -/
theorem to_str_int_min :
    decimal (-2147483648) = [45, 50, 49, 52, 55, 52, 56, 51, 54, 52, 56] ∧
    (_to_str_fill (-2147483648)).bind (fun st => st.1.cstr)
      = some [45, 46, 47, 44, 41, 44, 40, 45, 42, 44, 40] ∧
    (_to_str_fill (-2147483648)).map (fun st => st.1.off) = some 3 ∧
    _to_str_ (-2147483648) = none := by
  decide

/-- C2, the code at `n = -2147483648`: `_to_str_` yields no defined result, and
even the bytes it has laid out before the header write, `-./,),(-*,(`, hold no
digit after the sign, so the `%d` scan converts nothing and `_s_parse_` returns
an unwritten `int` rather than `n`. -/
theorem parse_to_str_int_min :
    (_to_str_ (-2147483648)).bind _s_parse_ = none ∧
    (_to_str_fill (-2147483648)).bind (fun st => _s_parse_ st.1) = none ∧
    (_to_str_ 2147483647).bind _s_parse_ = some 2147483647 := by
  decide

/-! ## `_s_literal_` -/

theorem replicate_cstr (n : Nat) (b : Byte) (hb : b ≠ 0) :
    CStr ⟨List.replicate n (some b) ++ [some 0], 0⟩ (List.replicate n b) := by
  have h := CStr.of_layout [] [] (List.replicate n b)
    (fun x hx => by rw [List.eq_of_mem_replicate hx]; exact hb)
  simpa using h

/-- C3 fails as stated.  With a zero byte among the first `l` source bytes
(`A\0BC`, `l = 3`) `strcpy` stops after the zero: payload positions 2 and 3 are
never written, so neither the source byte `B` nor the terminator is there.
With a non-zero byte at position `l` (`ABC\0`, `l = 2`) `strcpy` writes a fourth
byte past the end of the `l + 5` byte block.  With `l = 2147483643` the size
`l + 5` leaves the range of `int` and nothing is allocated. -/
theorem s_literal_counterexample :
    _s_literal_ ⟨[some 65, some 0, some 66, some 67], 0⟩ 3
      = some ⟨[some 3, some 0, some 0, some 0, some 65, some 0, none, none], 4⟩ ∧
    _s_literal_ ⟨[some 65, some 66, some 67, some 0], 0⟩ 2 = none ∧
    CStr ⟨List.replicate 2147483643 (some 65) ++ [some 0], 0⟩ (List.replicate 2147483643 65) ∧
    _s_literal_ ⟨List.replicate 2147483643 (some 65) ++ [some 0], 0⟩ 2147483643 = none :=
  ⟨by decide, by decide, replicate_cstr 2147483643 65 (by decide), by decide⟩

/-- C3 as amended: when the source is a null-terminated string of exactly `l`
bytes (no zero byte among the first `l`, a zero byte at position `l`) and
`l + 5` fits an `int`, `_s_literal_` returns a buffer whose header is `l`, whose
payload bytes `0..l-1` are the source bytes and whose byte `l` is the
terminator. -/
theorem s_literal_cstring (s : Ptr) (bs : List Byte) (l : Int)
    (hs : CStr s bs) (hl : l = (bs.length : Int)) (hb : l + 5 ≤ INT_MAX) :
    ∃ ret, _s_literal_ s l = some ret ∧
      _s_length_ ret = some l ∧
      (∀ (i : Nat) (hi : i < bs.length),
        s.load i = some (bs.get ⟨i, hi⟩) ∧ ret.load i = some (bs.get ⟨i, hi⟩)) ∧
      ret.load l = some 0 := by
  subst hl
  unfold INT_MAX at hb
  refine ⟨tagged bs.length bs, s_literal_spec hs hb, ?_, ?_, tagged_load_end _ bs⟩
  · exact tagged_load32 _ _ (by omega) (by omega)
  · intro i hi
    obtain ⟨pre, rest, rfl, _⟩ := hs.layout
    exact ⟨layout_load pre rest bs _ _ i hi rfl, tagged_load _ bs i hi⟩

theorem s_literal_cstring_witness :
    CStr ⟨[some 104, some 105, some 0], 0⟩ [104, 105] ∧
    ∃ ret, _s_literal_ ⟨[some 104, some 105, some 0], 0⟩ 2 = some ret ∧
      _s_length_ ret = some 2 ∧
      (∀ (i : Nat) (hi : i < [(104 : Byte), 105].length),
        (⟨[some 104, some 105, some 0], 0⟩ : Ptr).load i = some ([(104 : Byte), 105].get ⟨i, hi⟩) ∧
        ret.load i = some ([(104 : Byte), 105].get ⟨i, hi⟩)) ∧
      ret.load 2 = some 0 :=
  ⟨by decide, s_literal_cstring ⟨[some 104, some 105, some 0], 0⟩ [104, 105] 2
    (by decide) (by decide) (by decide)⟩

/-! ## The order computed by `_s_less_` -/

/-- C4 fails as stated when plain `char` is signed: the byte `0x80` is the
`char` value -128, so `_s_less_("\x80", "A")` is true although `"\x80"` follows
`"A"` in the unsigned order of `strcmp`. -/
theorem s_less_signed_counterexample :
    CStr (tagged 1 [128]) [128] ∧ CStr (tagged 1 [65]) [65] ∧
    _s_less_ true (tagged 1 [128]) (tagged 1 [65]) = some true ∧
    strcmpLt [128] [65] = false := by
  decide

/-- C4 as amended: for null-terminated strings `a` and `b`, `_s_less_` returns
true exactly when, at the first position where the two terminated byte
sequences differ, the byte of `a` is smaller than the byte of `b` as a value of
plain `char`.  When plain `char` is unsigned, or when every payload byte is
below `0x80`, this is the byte-wise lexicographic order of `strcmp` (unsigned
bytes, a proper prefix being smaller). -/
theorem s_less_char_order (sc : Bool) (a b : Ptr) (as bs : List Byte)
    (ha : CStr a as) (hb : CStr b bs) :
    _s_less_ sc a b = some (lexLt (charVal sc) (as ++ [0]) (bs ++ [0])) ∧
    ((sc = false ∨ ((∀ x ∈ as, x.val < 128) ∧ ∀ x ∈ bs, x.val < 128)) →
      _s_less_ sc a b = some (strcmpLt as bs)) := by
  refine ⟨s_less_eq ha hb, fun h => ?_⟩
  obtain ⟨_, _, _, hnza⟩ := ha.layout
  obtain ⟨_, _, _, hnzb⟩ := hb.layout
  rw [s_less_eq ha hb]
  congr 1
  apply lexLt_terminated _ ((charVal_eq_zero sc 0).mpr rfl) as bs hnza hnzb
  · intro x hx
    rcases h with rfl | h
    · exact charVal_unsigned x
    · exact charVal_ascii sc x (h.1 x hx)
  · intro x hx
    rcases h with rfl | h
    · exact charVal_unsigned x
    · exact charVal_ascii sc x (h.2 x hx)

theorem s_less_char_order_witness :
    CStr (tagged 2 [104, 105]) [104, 105] ∧ CStr (tagged 3 [104, 105, 33]) [104, 105, 33] ∧
    (_s_less_ true (tagged 2 [104, 105]) (tagged 3 [104, 105, 33])
        = some (lexLt (charVal true) ([104, 105] ++ [0]) ([104, 105, 33] ++ [0])) ∧
      ((true = false ∨ ((∀ x ∈ [(104 : Byte), 105], x.val < 128) ∧
          ∀ x ∈ [(104 : Byte), 105, 33], x.val < 128)) →
        _s_less_ true (tagged 2 [104, 105]) (tagged 3 [104, 105, 33])
          = some (strcmpLt [104, 105] [104, 105, 33]))) :=
  ⟨by decide, by decide,
    s_less_char_order true (tagged 2 [104, 105]) (tagged 3 [104, 105, 33]) [104, 105]
      [104, 105, 33] (by decide) (by decide)⟩

/-! ## `_s_concatenate_` and `_s_substring_` -/

theorem replicate_tstr (n : Nat) (b : Byte) (hb : b ≠ 0) (hn : (n : Int) + 5 ≤ 2147483647) :
    TStr (tagged n (List.replicate n b)) (List.replicate n b) := by
  have h := tagged_tstr (List.replicate n b)
    (fun x hx => by rw [List.eq_of_mem_replicate hx]; exact hb) (by simpa using hn)
  simpa using h

/-- When the two headers no longer add up within an `int`, `_s_concatenate_`
asks `malloc` for a negative size. -/
theorem s_concatenate_wraps (s t : Ptr) (x y : Int)
    (hls : s.load32 (-4) = some x) (hlt : t.load32 (-4) = some y)
    (h1 : 2147483647 < x + y + 5) (h2 : x + y + 5 < 4294967296) :
    _s_concatenate_ s t = none := by
  have hneg : ¬ (0 ≤ wrap32 (5 + wrap32 (y + x))) := by
    unfold wrap32; omega
  have hm : malloc (wrap32 (5 + wrap32 (y + x))) = none := by
    unfold malloc
    rw [if_neg hneg]
  simp only [_s_concatenate_, hls, hlt, Option.bind_eq_bind, bind_some_eq, hm, bind_none_eq]

theorem s_concatenate_overflow :
    _s_concatenate_ (tagged (1073741824 : Nat) (List.replicate 1073741824 65))
      (tagged (1073741824 : Nat) (List.replicate 1073741824 65)) = none :=
  s_concatenate_wraps _ _ (1073741824 : Nat) (1073741824 : Nat)
    (tagged_load32 _ _ (by decide) (by decide)) (tagged_load32 _ _ (by decide) (by decide))
    (by decide) (by decide)

/-- C5 fails as stated once the two lengths no longer add up within an `int`:
for a string of 1073741824 bytes concatenated with itself `tot` wraps to
-2147483648, the size `5 + tot` is negative and nothing is allocated. -/
theorem s_concatenate_counterexample :
    TStr (tagged (1073741824 : Nat) (List.replicate 1073741824 65))
      (List.replicate 1073741824 65) ∧
    _s_concatenate_ (tagged (1073741824 : Nat) (List.replicate 1073741824 65))
      (tagged (1073741824 : Nat) (List.replicate 1073741824 65)) = none :=
  ⟨replicate_tstr 1073741824 65 (by decide) (by decide), s_concatenate_overflow⟩

/-- C5 as amended: for strings `s` and `t` whose headers equal their character
counts and whose lengths satisfy `len(s) + len(t) + 5 ≤ INT_MAX`,
`_s_concatenate_` returns a buffer whose header is
`string_length(s) + string_length(t)`, whose payload is the bytes of `s`
followed by the bytes of `t`, and whose byte at `len(s) + len(t)` is the
terminator. -/
theorem s_concatenate_payload (s t : Ptr) (bs bt : List Byte)
    (hs : TStr s bs) (ht : TStr t bt)
    (hb : (bs.length : Int) + bt.length + 5 ≤ INT_MAX) :
    ∃ ret ls lt, _s_concatenate_ s t = some ret ∧
      _s_length_ s = some ls ∧ _s_length_ t = some lt ∧ _s_length_ ret = some (ls + lt) ∧
      ls = bs.length ∧ lt = bt.length ∧
      (∀ (i : Nat) (hi : i < bs.length), ret.load i = some (bs.get ⟨i, hi⟩)) ∧
      (∀ (j : Nat) (hj : j < bt.length),
        ret.load ((bs.length : Int) + j) = some (bt.get ⟨j, hj⟩)) ∧
      ret.load ((bs.length : Int) + bt.length) = some 0 := by
  unfold INT_MAX at hb
  refine ⟨tagged ((bs.length : Int) + bt.length) (bs ++ bt), bs.length, bt.length,
    s_concatenate_spec hs.2.2 ht.2.2 hs.2.1 ht.2.1 hb, hs.2.1, ht.2.1,
    tagged_load32 _ _ (by omega) (by omega), rfl, rfl, ?_, ?_, ?_⟩
  · intro i hi
    have := tagged_load ((bs.length : Int) + bt.length) (bs ++ bt) i (by simp; omega)
    rw [this]
    simp [List.getElem_append_left, hi]
  · intro j hj
    have := tagged_load ((bs.length : Int) + bt.length) (bs ++ bt) (bs.length + j) (by simp; omega)
    push_cast at this
    rw [this]
    simp [List.getElem_append_right]
  · have := tagged_load_end ((bs.length : Int) + bt.length) (bs ++ bt)
    simpa using this

theorem s_concatenate_payload_witness :
    TStr (tagged 2 [104, 105]) [104, 105] ∧ TStr (tagged 1 [33]) [33] ∧
    (([(104 : Byte), 105].length : Int) + [(33 : Byte)].length + 5 ≤ INT_MAX) ∧
    ∃ ret ls lt, _s_concatenate_ (tagged 2 [104, 105]) (tagged 1 [33]) = some ret ∧
      _s_length_ (tagged 2 [104, 105]) = some ls ∧ _s_length_ (tagged 1 [33]) = some lt ∧
      _s_length_ ret = some (ls + lt) ∧
      ls = [(104 : Byte), 105].length ∧ lt = [(33 : Byte)].length ∧
      (∀ (i : Nat) (hi : i < [(104 : Byte), 105].length),
        ret.load i = some ([(104 : Byte), 105].get ⟨i, hi⟩)) ∧
      (∀ (j : Nat) (hj : j < [(33 : Byte)].length),
        ret.load (([(104 : Byte), 105].length : Int) + j) = some ([(33 : Byte)].get ⟨j, hj⟩)) ∧
      ret.load (([(104 : Byte), 105].length : Int) + [(33 : Byte)].length) = some 0 :=
  ⟨by decide, by decide, by decide,
    s_concatenate_payload (tagged 2 [104, 105]) (tagged 1 [33]) [104, 105] [33]
      (by decide) (by decide) (by decide)⟩

/-- C6: for a string `s` of the runtime and `0 ≤ l ≤ r ≤ string_length(s)`,
`_s_substring_` returns a buffer whose header is `r - l`, whose payload byte at
each position `i < r - l` is `s[l + i]`, and whose byte at `r - l` is the
terminator. -/
theorem s_substring_payload (s : Ptr) (bs : List Byte) (l r : Int)
    (hs : TStr s bs) (h0 : 0 ≤ l) (h1 : l ≤ r) (h2 : r ≤ (bs.length : Int)) :
    _s_length_ s = some (bs.length : Int) ∧
    ∃ ret, _s_substring_ s l r = some ret ∧
      _s_length_ ret = some (r - l) ∧
      (∀ i : Nat, (i : Int) < r - l →
        ∃ b, s.load (l + i) = some b ∧ ret.load i = some b) ∧
      ret.load (r - l) = some 0 := by
  have hbound := hs.bound
  have hlen : ((bs.drop l.toNat).take (r - l).toNat).length = (r - l).toNat := by
    rw [List.length_take, List.length_drop]; omega
  refine ⟨hs.2.1, tagged (r - l) ((bs.drop l.toNat).take (r - l).toNat),
    s_substring_spec hs.2.2 l r h0 h1 h2 (by omega), tagged_load32 _ _ (by omega) (by omega),
    ?_, ?_⟩
  · intro i hi
    have hi' : i < ((bs.drop l.toNat).take (r - l).toNat).length := by omega
    have hj : l.toNat + i < bs.length := by omega
    obtain ⟨pre, rest, rfl, _⟩ := CStr.layout hs.2.2
    refine ⟨bs.get ⟨l.toNat + i, hj⟩, ?_, ?_⟩
    · exact layout_load pre rest bs _ _ (l.toNat + i) hj (by push_cast; omega)
    · rw [tagged_load _ _ i hi']
      simp
  · have := tagged_load_end (r - l) ((bs.drop l.toNat).take (r - l).toNat)
    rw [hlen] at this
    have e : (((r - l).toNat : Nat) : Int) = r - l := by omega
    rwa [e] at this

theorem s_substring_payload_witness :
    TStr (tagged 4 [77, 120, 42, 33]) [77, 120, 42, 33] ∧ (0 : Int) ≤ 1 ∧ (1 : Int) ≤ 3 ∧
    (3 : Int) ≤ ([(77 : Byte), 120, 42, 33].length : Int) ∧
    (_s_length_ (tagged 4 [77, 120, 42, 33]) = some ([(77 : Byte), 120, 42, 33].length : Int) ∧
    ∃ ret, _s_substring_ (tagged 4 [77, 120, 42, 33]) 1 3 = some ret ∧
      _s_length_ ret = some (3 - 1) ∧
      (∀ i : Nat, (i : Int) < 3 - 1 →
        ∃ b, (tagged 4 [77, 120, 42, 33]).load (1 + i) = some b ∧ ret.load i = some b) ∧
      ret.load (3 - 1) = some 0) :=
  ⟨by decide, by decide, by decide, by decide,
    s_substring_payload (tagged 4 [77, 120, 42, 33]) [77, 120, 42, 33] 1 3
      (by decide) (by decide) (by decide) (by decide)⟩

/-! ## Equality and the order of the comparisons -/

/-- C7: for null-terminated strings `a` and `b`, `_s_equal_` returns true
exactly when the bytes before the first terminator of `a` and of `b` are the
same sequence, and false otherwise; `_s_equal_(a, a)` is true and
`_s_less_(a, a)`, `_s_greater_(a, a)` are false. -/
theorem s_equal_payload (sc : Bool) (a b : Ptr) (as bs : List Byte)
    (ha : CStr a as) (hb : CStr b bs) :
    _s_equal_ sc a b = some (decide (as = bs)) ∧
    _s_equal_ sc a a = some true ∧
    _s_less_ sc a a = some false ∧
    _s_greater_ sc a a = some false := by
  refine ⟨s_equal_eq ha hb, ?_, ?_, ?_⟩
  · rw [s_equal_eq ha ha]; simp
  · rw [s_less_eq ha ha, lexLt_irrefl]
  · rw [s_greater_eq ha ha, lexLt_irrefl]

theorem s_equal_payload_witness :
    CStr (tagged 2 [104, 105]) [104, 105] ∧ CStr (tagged 7 [104, 105]) [104, 105] ∧
    (_s_equal_ true (tagged 2 [104, 105]) (tagged 7 [104, 105])
        = some (decide ([(104 : Byte), 105] = [104, 105])) ∧
      _s_equal_ true (tagged 2 [104, 105]) (tagged 2 [104, 105]) = some true ∧
      _s_less_ true (tagged 2 [104, 105]) (tagged 2 [104, 105]) = some false ∧
      _s_greater_ true (tagged 2 [104, 105]) (tagged 2 [104, 105]) = some false) :=
  ⟨by decide, by decide,
    s_equal_payload true (tagged 2 [104, 105]) (tagged 7 [104, 105]) [104, 105] [104, 105]
      (by decide) (by decide)⟩

/-- C8: for null-terminated strings `a` and `b`, each of `_s_less_`,
`_s_equal_`, `_s_greater_` returns, and exactly one of the three results is
true. -/
theorem s_trichotomy (sc : Bool) (a b : Ptr) (as bs : List Byte)
    (ha : CStr a as) (hb : CStr b bs) :
    ∃ l e g : Bool, _s_less_ sc a b = some l ∧ _s_equal_ sc a b = some e ∧
      _s_greater_ sc a b = some g ∧
      ((l = true ∧ e = false ∧ g = false) ∨ (l = false ∧ e = true ∧ g = false) ∨
        (l = false ∧ e = false ∧ g = true)) := by
  refine ⟨_, _, _, s_less_eq ha hb, s_equal_eq ha hb, s_greater_eq ha hb, ?_⟩
  have hne : lexLt (charVal sc) (as ++ [0]) (bs ++ [0]) = true → as ≠ bs := by
    rintro h rfl
    rw [lexLt_irrefl] at h
    exact Bool.noConfusion h
  have hne' : lexLt (charVal sc) (bs ++ [0]) (as ++ [0]) = true → as ≠ bs := by
    rintro h rfl
    rw [lexLt_irrefl] at h
    exact Bool.noConfusion h
  cases h1 : lexLt (charVal sc) (as ++ [0]) (bs ++ [0])
  · cases h2 : lexLt (charVal sc) (bs ++ [0]) (as ++ [0])
    · have e := lexLt_total (charVal sc) (fun x y h => (charVal_inj sc x y).mp h) _ _ h1 h2
      have e' : as = bs := List.append_cancel_right e
      right; left
      exact ⟨rfl, by simp [e'], rfl⟩
    · right; right
      exact ⟨rfl, by simpa using hne' h2, rfl⟩
  · left
    exact ⟨rfl, by simpa using hne h1, lexLt_asymm _ _ _ h1⟩

theorem s_trichotomy_witness :
    CStr (tagged 2 [104, 105]) [104, 105] ∧ CStr (tagged 2 [104, 200]) [104, 200] ∧
    ∃ l e g : Bool, _s_less_ true (tagged 2 [104, 105]) (tagged 2 [104, 200]) = some l ∧
      _s_equal_ true (tagged 2 [104, 105]) (tagged 2 [104, 200]) = some e ∧
      _s_greater_ true (tagged 2 [104, 105]) (tagged 2 [104, 200]) = some g ∧
      ((l = true ∧ e = false ∧ g = false) ∨ (l = false ∧ e = true ∧ g = false) ∨
        (l = false ∧ e = false ∧ g = true)) :=
  ⟨by decide, by decide,
    s_trichotomy true (tagged 2 [104, 105]) (tagged 2 [104, 200]) [104, 105] [104, 200]
      (by decide) (by decide)⟩

/-- C9: on null-terminated strings `_s_less_` is transitive, and
`_s_less_(a, b)` and `_s_less_(b, a)` are never both true. -/
theorem s_less_strict_order (sc : Bool) (a b c : Ptr) (as bs cs : List Byte)
    (ha : CStr a as) (hb : CStr b bs) (hc : CStr c cs) :
    (_s_less_ sc a b = some true → _s_less_ sc b c = some true → _s_less_ sc a c = some true) ∧
    ¬ (_s_less_ sc a b = some true ∧ _s_less_ sc b a = some true) := by
  rw [s_less_eq ha hb, s_less_eq hb hc, s_less_eq ha hc, s_less_eq hb ha]
  constructor
  · intro h1 h2
    rw [lexLt_trans _ _ _ _ (Option.some.inj h1) (Option.some.inj h2)]
  · rintro ⟨h1, h2⟩
    have := lexLt_asymm _ _ _ (Option.some.inj h1)
    rw [this] at h2
    exact Bool.noConfusion (Option.some.inj h2)

theorem s_less_strict_order_witness :
    CStr (tagged 1 [200]) [200] ∧ CStr (tagged 2 [104, 105]) [104, 105] ∧
    CStr (tagged 2 [104, 106]) [104, 106] ∧
    ((_s_less_ true (tagged 1 [200]) (tagged 2 [104, 105]) = some true →
        _s_less_ true (tagged 2 [104, 105]) (tagged 2 [104, 106]) = some true →
        _s_less_ true (tagged 1 [200]) (tagged 2 [104, 106]) = some true) ∧
      ¬ (_s_less_ true (tagged 1 [200]) (tagged 2 [104, 105]) = some true ∧
        _s_less_ true (tagged 2 [104, 105]) (tagged 1 [200]) = some true)) :=
  ⟨by decide, by decide, by decide,
    s_less_strict_order true (tagged 1 [200]) (tagged 2 [104, 105]) (tagged 2 [104, 106])
      [200] [104, 105] [104, 106] (by decide) (by decide) (by decide)⟩

/-! ## The head of a concatenation -/

/-- C10 fails as stated once the two lengths no longer add up within an `int`:
for a string of 1073741824 bytes concatenated with itself no buffer is
allocated, so there is nothing to take a substring of. -/
theorem concat_head_equal_counterexample :
    TStr (tagged (1073741824 : Nat) (List.replicate 1073741824 65))
      (List.replicate 1073741824 65) ∧
    ((_s_concatenate_ (tagged (1073741824 : Nat) (List.replicate 1073741824 65))
        (tagged (1073741824 : Nat) (List.replicate 1073741824 65))).bind fun c =>
      (_s_length_ (tagged (1073741824 : Nat) (List.replicate 1073741824 65))).bind fun n =>
      (_s_substring_ c 0 n).bind fun p =>
      _s_equal_ true p (tagged (1073741824 : Nat) (List.replicate 1073741824 65))) = none := by
  refine ⟨replicate_tstr 1073741824 65 (by decide) (by decide), ?_⟩
  rw [s_concatenate_overflow, bind_none_eq]

/-- C10 as amended: for strings `s` and `t` whose headers equal their character
counts and whose lengths satisfy `len(s) + len(t) + 5 ≤ INT_MAX`,
`_s_equal_(_s_substring_(_s_concatenate_(s, t), 0, _s_length_(s)), s)` returns
true. -/
theorem concat_head_equal (sc : Bool) (s t : Ptr) (bs bt : List Byte)
    (hs : TStr s bs) (ht : TStr t bt)
    (hb : (bs.length : Int) + bt.length + 5 ≤ INT_MAX) :
    ((_s_concatenate_ s t).bind fun c =>
      (_s_length_ s).bind fun n =>
      (_s_substring_ c 0 n).bind fun p =>
      _s_equal_ sc p s) = some true := by
  unfold INT_MAX at hb
  obtain ⟨_, _, _, hnzs⟩ := CStr.layout hs.2.2
  obtain ⟨_, _, _, hnzt⟩ := CStr.layout ht.2.2
  have hnz : ∀ b ∈ bs ++ bt, b ≠ 0 := by
    intro b hb'
    rcases List.mem_append.mp hb' with h | h
    · exact hnzs b h
    · exact hnzt b h
  have hc : CStr (tagged ((bs.length : Int) + bt.length) (bs ++ bt)) (bs ++ bt) :=
    tagged_cstr _ _ hnz
  have hsub := s_substring_spec hc 0 bs.length (le_refl 0) (by omega) (by simp) (by omega)
  have hpay : List.take ((bs.length : Int) - 0).toNat (List.drop (0 : Int).toNat (bs ++ bt)) = bs := by
    simp
  rw [hpay] at hsub
  have hp : CStr (tagged ((bs.length : Int) - 0) bs) bs := tagged_cstr _ _ hnzs
  rw [s_concatenate_spec hs.2.2 ht.2.2 hs.2.1 ht.2.1 hb, bind_some_eq]
  unfold _s_length_
  rw [hs.2.1, bind_some_eq, hsub, bind_some_eq, s_equal_eq hp hs.2.2]
  simp

theorem concat_head_equal_witness :
    TStr (tagged 2 [104, 105]) [104, 105] ∧ TStr (tagged 1 [33]) [33] ∧
    (([(104 : Byte), 105].length : Int) + [(33 : Byte)].length + 5 ≤ INT_MAX) ∧
    ((_s_concatenate_ (tagged 2 [104, 105]) (tagged 1 [33])).bind fun c =>
      (_s_length_ (tagged 2 [104, 105])).bind fun n =>
      (_s_substring_ c 0 n).bind fun p =>
      _s_equal_ true p (tagged 2 [104, 105])) = some true :=
  ⟨by decide, by decide, by decide,
    concat_head_equal true (tagged 2 [104, 105]) (tagged 1 [33]) [104, 105] [33]
      (by decide) (by decide) (by decide)⟩

/-! ## The six loops as instances of one shape -/

theorem equal_loop_eq_cmp (sc : Bool) : ∀ s t : List Cell,
    equal_loop sc s t = cmp_loop sc false false true s t
  | some a :: s, some b :: t => by
    have ih := equal_loop_eq_cmp sc s t
    simp only [equal_loop, cmp_loop, ih]
    split_ifs <;> first | rfl | omega
  | [], _ => by simp [equal_loop, cmp_loop]
  | none :: _, _ => by simp [equal_loop, cmp_loop]
  | some _ :: _, [] => by simp [equal_loop, cmp_loop]
  | some _ :: _, none :: _ => by simp [equal_loop, cmp_loop]

theorem neq_loop_eq_cmp (sc : Bool) : ∀ s t : List Cell,
    neq_loop sc s t = cmp_loop sc true true false s t
  | some a :: s, some b :: t => by
    have ih := neq_loop_eq_cmp sc s t
    simp only [neq_loop, cmp_loop, ih]
    split_ifs <;> first | rfl | omega
  | [], _ => by simp [neq_loop, cmp_loop]
  | none :: _, _ => by simp [neq_loop, cmp_loop]
  | some _ :: _, [] => by simp [neq_loop, cmp_loop]
  | some _ :: _, none :: _ => by simp [neq_loop, cmp_loop]

theorem less_loop_eq_cmp (sc : Bool) : ∀ s t : List Cell,
    less_loop sc s t = cmp_loop sc true false false s t
  | some a :: s, some b :: t => by
    have ih := less_loop_eq_cmp sc s t
    simp only [less_loop, cmp_loop, ih]
  | [], _ => by simp [less_loop, cmp_loop]
  | none :: _, _ => by simp [less_loop, cmp_loop]
  | some _ :: _, [] => by simp [less_loop, cmp_loop]
  | some _ :: _, none :: _ => by simp [less_loop, cmp_loop]

theorem leq_loop_eq_cmp (sc : Bool) : ∀ s t : List Cell,
    leq_loop sc s t = cmp_loop sc true false true s t
  | some a :: s, some b :: t => by
    have ih := leq_loop_eq_cmp sc s t
    simp only [leq_loop, cmp_loop, ih]
  | [], _ => by simp [leq_loop, cmp_loop]
  | none :: _, _ => by simp [leq_loop, cmp_loop]
  | some _ :: _, [] => by simp [leq_loop, cmp_loop]
  | some _ :: _, none :: _ => by simp [leq_loop, cmp_loop]

theorem greater_loop_eq_cmp (sc : Bool) : ∀ s t : List Cell,
    greater_loop sc s t = cmp_loop sc false true false s t
  | some a :: s, some b :: t => by
    have ih := greater_loop_eq_cmp sc s t
    simp only [greater_loop, cmp_loop, ih]
  | [], _ => by simp [greater_loop, cmp_loop]
  | none :: _, _ => by simp [greater_loop, cmp_loop]
  | some _ :: _, [] => by simp [greater_loop, cmp_loop]
  | some _ :: _, none :: _ => by simp [greater_loop, cmp_loop]

theorem geq_loop_eq_cmp (sc : Bool) : ∀ s t : List Cell,
    geq_loop sc s t = cmp_loop sc false true true s t
  | some a :: s, some b :: t => by
    have ih := geq_loop_eq_cmp sc s t
    simp only [geq_loop, cmp_loop, ih]
  | [], _ => by simp [geq_loop, cmp_loop]
  | none :: _, _ => by simp [geq_loop, cmp_loop]
  | some _ :: _, [] => by simp [geq_loop, cmp_loop]
  | some _ :: _, none :: _ => by simp [geq_loop, cmp_loop]

theorem cmp_loop_spec (sc lt gt eq : Bool) : ∀ (as bs : List Byte) (ra rb : List Cell),
    (∀ b ∈ as, b ≠ 0) → (∀ b ∈ bs, b ≠ 0) →
    cmp_loop sc lt gt eq (as.map some ++ some 0 :: ra) (bs.map some ++ some 0 :: rb)
      = some (cmpResult sc lt gt eq as bs)
  | [], [], ra, rb, _, _ => by
    simp [cmp_loop, cmpResult, lexLt, (charVal_eq_zero sc 0).mpr rfl]
  | [], b :: bs, ra, rb, _, hb => by
    have hb0 := (zero_not_mem_ne hb b bs rfl).1
    have h0 : charVal sc 0 = 0 := (charVal_eq_zero sc 0).mpr rfl
    have hne : charVal sc b ≠ 0 := fun h => hb0 ((charVal_eq_zero sc b).mp h)
    simp only [List.map_nil, List.nil_append, List.map_cons, List.cons_append, cmp_loop,
      cmpResult, lexLt, h0]
    split_ifs <;> first | rfl | omega | simp_all
  | a :: as, [], ra, rb, ha, _ => by
    have ha0 := (zero_not_mem_ne ha a as rfl).1
    have h0 : charVal sc 0 = 0 := (charVal_eq_zero sc 0).mpr rfl
    have hne : charVal sc a ≠ 0 := fun h => ha0 ((charVal_eq_zero sc a).mp h)
    simp only [List.map_nil, List.nil_append, List.map_cons, List.cons_append, cmp_loop,
      cmpResult, lexLt, h0]
    split_ifs <;> first | rfl | omega | simp_all
  | a :: as, b :: bs, ra, rb, ha, hb => by
    have ha0 := zero_not_mem_ne ha a as rfl
    have hb0 := zero_not_mem_ne hb b bs rfl
    have hne : charVal sc a ≠ 0 := fun h => ha0.1 ((charVal_eq_zero sc a).mp h)
    have ih := cmp_loop_spec sc lt gt eq as bs ra rb ha0.2 hb0.2
    simp only [List.map_cons, List.cons_append, cmp_loop, cmpResult, lexLt]
    unfold cmpResult at ih
    split_ifs at ih ⊢ <;> first | rfl | exact ih | simp_all

/-- The loop only looks at the first `min (len a) (len b) + 1` cells of each
string: cutting both views down to that many cells leaves the result
unchanged. -/
theorem cmp_loop_take (sc lt gt eq : Bool) : ∀ (as bs : List Byte) (ra rb : List Cell),
    (∀ b ∈ as, b ≠ 0) → (∀ b ∈ bs, b ≠ 0) →
    cmp_loop sc lt gt eq
        ((as.map some ++ some 0 :: ra).take (min as.length bs.length + 1))
        ((bs.map some ++ some 0 :: rb).take (min as.length bs.length + 1))
      = cmp_loop sc lt gt eq (as.map some ++ some 0 :: ra) (bs.map some ++ some 0 :: rb)
  | [], [], ra, rb, _, _ => by
    simp [cmp_loop, (charVal_eq_zero sc 0).mpr rfl]
  | [], b :: bs, ra, rb, _, hb => by
    have hb0 := (zero_not_mem_ne hb b bs rfl).1
    have h0 : charVal sc 0 = 0 := (charVal_eq_zero sc 0).mpr rfl
    have hne : charVal sc b ≠ 0 := fun h => hb0 ((charVal_eq_zero sc b).mp h)
    simp only [List.map_nil, List.nil_append, List.map_cons, List.cons_append, List.length_nil,
      List.length_cons, Nat.zero_min, Nat.zero_add, List.take_succ_cons, List.take_zero,
      cmp_loop, h0]
    split_ifs <;> rfl
  | a :: as, [], ra, rb, ha, _ => by
    have ha0 := (zero_not_mem_ne ha a as rfl).1
    have h0 : charVal sc 0 = 0 := (charVal_eq_zero sc 0).mpr rfl
    have hne : charVal sc a ≠ 0 := fun h => ha0 ((charVal_eq_zero sc a).mp h)
    simp only [List.map_nil, List.nil_append, List.map_cons, List.cons_append, List.length_nil,
      List.length_cons, Nat.min_zero, Nat.zero_add, List.take_succ_cons, List.take_zero,
      cmp_loop, h0]
    split_ifs <;> first | rfl | omega
  | a :: as, b :: bs, ra, rb, ha, hb => by
    have ha0 := zero_not_mem_ne ha a as rfl
    have hb0 := zero_not_mem_ne hb b bs rfl
    have ih := cmp_loop_take sc lt gt eq as bs ra rb ha0.2 hb0.2
    simp only [List.map_cons, List.cons_append, List.length_cons, Nat.succ_min_succ,
      List.take_succ_cons, cmp_loop, Nat.succ_eq_add_one, List.append_eq, ih]

theorem view_layout (pre X : List Cell) : (⟨pre ++ X, (pre.length : Int)⟩ : Ptr).view = X := by
  simp [Ptr.view]

theorem view_zero (X : List Cell) : (⟨X, 0⟩ : Ptr).view = X := by
  simp [Ptr.view]

theorem s_cmp_eq {sc : Bool} {a b : Ptr} {as bs : List Byte} (ha : CStr a as) (hb : CStr b bs) :
    _s_equal_ sc a b = some (cmpResult sc false false true as bs) ∧
    _s_neq_ sc a b = some (cmpResult sc true true false as bs) ∧
    _s_less_ sc a b = some (cmpResult sc true false false as bs) ∧
    _s_leq_ sc a b = some (cmpResult sc true false true as bs) ∧
    _s_greater_ sc a b = some (cmpResult sc false true false as bs) ∧
    _s_geq_ sc a b = some (cmpResult sc false true true as bs) := by
  obtain ⟨pa, ra, rfl, ha0⟩ := ha.layout
  obtain ⟨pb, rb, rfl, hb0⟩ := hb.layout
  simp only [_s_equal_, _s_neq_, _s_less_, _s_leq_, _s_greater_, _s_geq_, view_layout,
    equal_loop_eq_cmp, neq_loop_eq_cmp, less_loop_eq_cmp, leq_loop_eq_cmp, greater_loop_eq_cmp,
    geq_loop_eq_cmp, cmp_loop_spec sc _ _ _ as bs ra rb ha0 hb0, and_self]

theorem s_cmp_take {sc : Bool} {a b : Ptr} {as bs : List Byte} (ha : CStr a as) (hb : CStr b bs)
    (k : Nat) (hk : k = min as.length bs.length + 1) :
    _s_equal_ sc ⟨a.view.take k, 0⟩ ⟨b.view.take k, 0⟩ = _s_equal_ sc a b ∧
    _s_neq_ sc ⟨a.view.take k, 0⟩ ⟨b.view.take k, 0⟩ = _s_neq_ sc a b ∧
    _s_less_ sc ⟨a.view.take k, 0⟩ ⟨b.view.take k, 0⟩ = _s_less_ sc a b ∧
    _s_leq_ sc ⟨a.view.take k, 0⟩ ⟨b.view.take k, 0⟩ = _s_leq_ sc a b ∧
    _s_greater_ sc ⟨a.view.take k, 0⟩ ⟨b.view.take k, 0⟩ = _s_greater_ sc a b ∧
    _s_geq_ sc ⟨a.view.take k, 0⟩ ⟨b.view.take k, 0⟩ = _s_geq_ sc a b := by
  obtain ⟨pa, ra, rfl, ha0⟩ := ha.layout
  obtain ⟨pb, rb, rfl, hb0⟩ := hb.layout
  subst hk
  simp only [_s_equal_, _s_neq_, _s_less_, _s_leq_, _s_greater_, _s_geq_, view_layout, view_zero,
    equal_loop_eq_cmp, neq_loop_eq_cmp, less_loop_eq_cmp, leq_loop_eq_cmp, greater_loop_eq_cmp,
    geq_loop_eq_cmp, cmp_loop_take sc _ _ _ as bs ra rb ha0 hb0, and_self]

/-! ## The full-range substring -/

/-- C11: for every non-empty string `s` whose header equals its character
count, `_s_equal_(_s_substring_(s, 0, _s_length_(s)), s)` returns true. -/
theorem substring_full_equal (sc : Bool) (s : Ptr) (bs : List Byte)
    (hs : TStr s bs) (_ : bs ≠ []) :
    ((_s_length_ s).bind fun n =>
      (_s_substring_ s 0 n).bind fun p =>
      _s_equal_ sc p s) = some true := by
  have hbound := hs.bound
  obtain ⟨_, _, _, hnz⟩ := CStr.layout hs.2.2
  have hsub := s_substring_spec hs.2.2 0 bs.length (le_refl 0) (by omega) (le_refl _) (by omega)
  have hpay : List.take ((bs.length : Int) - 0).toNat (List.drop (0 : Int).toNat bs) = bs := by
    simp
  rw [hpay] at hsub
  have hp : CStr (tagged ((bs.length : Int) - 0) bs) bs := tagged_cstr _ _ hnz
  unfold _s_length_
  rw [hs.2.1, bind_some_eq, hsub, bind_some_eq, s_equal_eq hp hs.2.2]
  simp

theorem substring_full_equal_witness :
    TStr (tagged 2 [104, 105]) [104, 105] ∧ [(104 : Byte), 105] ≠ [] ∧
    ((_s_length_ (tagged 2 [104, 105])).bind fun n =>
      (_s_substring_ (tagged 2 [104, 105]) 0 n).bind fun p =>
      _s_equal_ true p (tagged 2 [104, 105])) = some true :=
  ⟨by decide, by decide,
    substring_full_equal true (tagged 2 [104, 105]) [104, 105] (by decide) (by decide)⟩

/-! ## The comparisons and the header -/

/-- C13: the six comparisons do not consult the length header.  If `a` and `a'`
hold the same bytes up to and including the terminator, and likewise `b` and
`b'`, then whatever the header words (or anything else around the strings)
are, each comparison returns on `(a, b)` what it returns on `(a', b')`. -/
theorem comparisons_ignore_header (sc : Bool) (a a' b b' : Ptr) (as bs : List Byte)
    (ha : CStr a as) (ha' : CStr a' as) (hb : CStr b bs) (hb' : CStr b' bs) :
    (∃ r, _s_equal_ sc a b = some r ∧ _s_equal_ sc a' b' = some r) ∧
    (∃ r, _s_neq_ sc a b = some r ∧ _s_neq_ sc a' b' = some r) ∧
    (∃ r, _s_less_ sc a b = some r ∧ _s_less_ sc a' b' = some r) ∧
    (∃ r, _s_leq_ sc a b = some r ∧ _s_leq_ sc a' b' = some r) ∧
    (∃ r, _s_greater_ sc a b = some r ∧ _s_greater_ sc a' b' = some r) ∧
    (∃ r, _s_geq_ sc a b = some r ∧ _s_geq_ sc a' b' = some r) := by
  obtain ⟨h1, h2, h3, h4, h5, h6⟩ := @s_cmp_eq sc _ _ _ _ ha hb
  obtain ⟨k1, k2, k3, k4, k5, k6⟩ := @s_cmp_eq sc _ _ _ _ ha' hb'
  exact ⟨⟨_, h1, k1⟩, ⟨_, h2, k2⟩, ⟨_, h3, k3⟩, ⟨_, h4, k4⟩, ⟨_, h5, k5⟩, ⟨_, h6, k6⟩⟩

theorem comparisons_ignore_header_witness :
    CStr (tagged 2 [104, 105]) [104, 105] ∧ CStr (tagged (-7) [104, 105]) [104, 105] ∧
    CStr (tagged 2 [104, 200]) [104, 200] ∧ CStr (tagged 99 [104, 200]) [104, 200] ∧
    ((∃ r, _s_equal_ true (tagged 2 [104, 105]) (tagged 2 [104, 200]) = some r ∧
        _s_equal_ true (tagged (-7) [104, 105]) (tagged 99 [104, 200]) = some r) ∧
    (∃ r, _s_neq_ true (tagged 2 [104, 105]) (tagged 2 [104, 200]) = some r ∧
        _s_neq_ true (tagged (-7) [104, 105]) (tagged 99 [104, 200]) = some r) ∧
    (∃ r, _s_less_ true (tagged 2 [104, 105]) (tagged 2 [104, 200]) = some r ∧
        _s_less_ true (tagged (-7) [104, 105]) (tagged 99 [104, 200]) = some r) ∧
    (∃ r, _s_leq_ true (tagged 2 [104, 105]) (tagged 2 [104, 200]) = some r ∧
        _s_leq_ true (tagged (-7) [104, 105]) (tagged 99 [104, 200]) = some r) ∧
    (∃ r, _s_greater_ true (tagged 2 [104, 105]) (tagged 2 [104, 200]) = some r ∧
        _s_greater_ true (tagged (-7) [104, 105]) (tagged 99 [104, 200]) = some r) ∧
    (∃ r, _s_geq_ true (tagged 2 [104, 105]) (tagged 2 [104, 200]) = some r ∧
        _s_geq_ true (tagged (-7) [104, 105]) (tagged 99 [104, 200]) = some r)) :=
  ⟨by decide, by decide, by decide, by decide,
    comparisons_ignore_header true (tagged 2 [104, 105]) (tagged (-7) [104, 105])
      (tagged 2 [104, 200]) (tagged 99 [104, 200]) [104, 105] [104, 200]
      (by decide) (by decide) (by decide) (by decide)⟩

/-! ## `_s_ord_` -/

/-- C16 fails as stated when plain `char` is signed: the byte `0xC8` (200) is
the `char` value -56, and that is what `_s_ord_` returns, not 200. -/
theorem s_ord_signed_counterexample :
    TStr (tagged 1 [200]) [200] ∧ _s_ord_ true (tagged 1 [200]) 0 = some (-56) := by
  decide

/-- C16 as amended: for a string `s` and `0 ≤ index < _s_length_(s)`, `_s_ord_`
returns the byte at payload position `index` as a value of plain `char`
widened to `int`: the byte value itself (a number in 0..255) when plain `char`
is unsigned or the byte is below `0x80`, and the byte value minus 256 when plain
`char` is signed and the byte is `0x80` or above. -/
theorem s_ord_char_value (sc : Bool) (s : Ptr) (bs : List Byte) (index : Int)
    (hs : TStr s bs) (h0 : 0 ≤ index) (h1 : index < (bs.length : Int)) :
    _s_length_ s = some (bs.length : Int) ∧
    ∃ b : Byte, s.load index = some b ∧ bs[index.toNat]? = some b ∧
      _s_ord_ sc s index = some (charVal sc b) ∧
      ((sc = false ∨ b.val < 128) → _s_ord_ sc s index = some (b.val : Int)) ∧
      ((sc = true ∧ 128 ≤ b.val) → _s_ord_ sc s index = some ((b.val : Int) - 256)) := by
  have hi : index.toNat < bs.length := by omega
  obtain ⟨pre, rest, rfl, _⟩ := CStr.layout hs.2.2
  have hl := layout_load pre rest bs (pre.length : Int) index index.toNat hi (by omega)
  refine ⟨hs.2.1, bs.get ⟨index.toNat, hi⟩, hl, by simp, ?_, ?_, ?_⟩
  · simp [_s_ord_, hl]
  · rintro (rfl | h)
    · simp [_s_ord_, hl, charVal_unsigned]
    · simp only [_s_ord_, hl, Option.map_some', charVal_ascii sc _ h]
  · rintro ⟨rfl, h⟩
    have : charVal true (bs.get ⟨index.toNat, hi⟩) = ((bs.get ⟨index.toNat, hi⟩).val : Int) - 256 := by
      unfold charVal
      rw [if_pos (by simpa using h)]
    simp only [_s_ord_, hl, Option.map_some', this]

theorem s_ord_char_value_witness :
    TStr (tagged 2 [104, 200]) [104, 200] ∧ (0 : Int) ≤ 1 ∧
    (1 : Int) < ([(104 : Byte), 200].length : Int) ∧
    (_s_length_ (tagged 2 [104, 200]) = some ([(104 : Byte), 200].length : Int) ∧
    ∃ b : Byte, (tagged 2 [104, 200]).load 1 = some b ∧
      [(104 : Byte), 200][(1 : Int).toNat]? = some b ∧
      _s_ord_ true (tagged 2 [104, 200]) 1 = some (charVal true b) ∧
      ((true = false ∨ b.val < 128) → _s_ord_ true (tagged 2 [104, 200]) 1 = some (b.val : Int)) ∧
      ((true = true ∧ 128 ≤ b.val) →
        _s_ord_ true (tagged 2 [104, 200]) 1 = some ((b.val : Int) - 256))) :=
  ⟨by decide, by decide, by decide,
    s_ord_char_value true (tagged 2 [104, 200]) [104, 200] 1 (by decide) (by decide) (by decide)⟩

/-! ## Reads of the comparison loops -/

/-- C19: for strings `a` and `b` with terminators at positions `len(a)` and
`len(b)`, each of the six comparisons returns, and returns the same when only
the first `min(len(a), len(b)) + 1` cells from each pointer are readable: no
loop inspects a later position, hence none reads past either terminator. -/
theorem comparisons_bounded_reads (sc : Bool) (a b : Ptr) (as bs : List Byte)
    (ha : CStr a as) (hb : CStr b bs) :
    (∃ r, _s_equal_ sc a b = some r ∧
      _s_equal_ sc ⟨a.view.take (min as.length bs.length + 1), 0⟩
        ⟨b.view.take (min as.length bs.length + 1), 0⟩ = some r) ∧
    (∃ r, _s_neq_ sc a b = some r ∧
      _s_neq_ sc ⟨a.view.take (min as.length bs.length + 1), 0⟩
        ⟨b.view.take (min as.length bs.length + 1), 0⟩ = some r) ∧
    (∃ r, _s_less_ sc a b = some r ∧
      _s_less_ sc ⟨a.view.take (min as.length bs.length + 1), 0⟩
        ⟨b.view.take (min as.length bs.length + 1), 0⟩ = some r) ∧
    (∃ r, _s_leq_ sc a b = some r ∧
      _s_leq_ sc ⟨a.view.take (min as.length bs.length + 1), 0⟩
        ⟨b.view.take (min as.length bs.length + 1), 0⟩ = some r) ∧
    (∃ r, _s_greater_ sc a b = some r ∧
      _s_greater_ sc ⟨a.view.take (min as.length bs.length + 1), 0⟩
        ⟨b.view.take (min as.length bs.length + 1), 0⟩ = some r) ∧
    (∃ r, _s_geq_ sc a b = some r ∧
      _s_geq_ sc ⟨a.view.take (min as.length bs.length + 1), 0⟩
        ⟨b.view.take (min as.length bs.length + 1), 0⟩ = some r) := by
  obtain ⟨h1, h2, h3, h4, h5, h6⟩ := @s_cmp_eq sc _ _ _ _ ha hb
  obtain ⟨k1, k2, k3, k4, k5, k6⟩ := @s_cmp_take sc _ _ _ _ ha hb _ rfl
  exact ⟨⟨_, h1, k1.trans h1⟩, ⟨_, h2, k2.trans h2⟩, ⟨_, h3, k3.trans h3⟩, ⟨_, h4, k4.trans h4⟩,
    ⟨_, h5, k5.trans h5⟩, ⟨_, h6, k6.trans h6⟩⟩

theorem comparisons_bounded_reads_witness :
    CStr (tagged 2 [104, 105]) [104, 105] ∧ CStr (tagged 4 [104, 200, 33, 33]) [104, 200, 33, 33] ∧
    ((∃ r, _s_equal_ true (tagged 2 [104, 105]) (tagged 4 [104, 200, 33, 33]) = some r ∧
      _s_equal_ true
        ⟨(tagged 2 [104, 105]).view.take
          (min [(104 : Byte), 105].length [(104 : Byte), 200, 33, 33].length + 1), 0⟩
        ⟨(tagged 4 [104, 200, 33, 33]).view.take
          (min [(104 : Byte), 105].length [(104 : Byte), 200, 33, 33].length + 1), 0⟩ = some r) ∧
    (∃ r, _s_neq_ true (tagged 2 [104, 105]) (tagged 4 [104, 200, 33, 33]) = some r ∧
      _s_neq_ true
        ⟨(tagged 2 [104, 105]).view.take
          (min [(104 : Byte), 105].length [(104 : Byte), 200, 33, 33].length + 1), 0⟩
        ⟨(tagged 4 [104, 200, 33, 33]).view.take
          (min [(104 : Byte), 105].length [(104 : Byte), 200, 33, 33].length + 1), 0⟩ = some r) ∧
    (∃ r, _s_less_ true (tagged 2 [104, 105]) (tagged 4 [104, 200, 33, 33]) = some r ∧
      _s_less_ true
        ⟨(tagged 2 [104, 105]).view.take
          (min [(104 : Byte), 105].length [(104 : Byte), 200, 33, 33].length + 1), 0⟩
        ⟨(tagged 4 [104, 200, 33, 33]).view.take
          (min [(104 : Byte), 105].length [(104 : Byte), 200, 33, 33].length + 1), 0⟩ = some r) ∧
    (∃ r, _s_leq_ true (tagged 2 [104, 105]) (tagged 4 [104, 200, 33, 33]) = some r ∧
      _s_leq_ true
        ⟨(tagged 2 [104, 105]).view.take
          (min [(104 : Byte), 105].length [(104 : Byte), 200, 33, 33].length + 1), 0⟩
        ⟨(tagged 4 [104, 200, 33, 33]).view.take
          (min [(104 : Byte), 105].length [(104 : Byte), 200, 33, 33].length + 1), 0⟩ = some r) ∧
    (∃ r, _s_greater_ true (tagged 2 [104, 105]) (tagged 4 [104, 200, 33, 33]) = some r ∧
      _s_greater_ true
        ⟨(tagged 2 [104, 105]).view.take
          (min [(104 : Byte), 105].length [(104 : Byte), 200, 33, 33].length + 1), 0⟩
        ⟨(tagged 4 [104, 200, 33, 33]).view.take
          (min [(104 : Byte), 105].length [(104 : Byte), 200, 33, 33].length + 1), 0⟩ = some r) ∧
    (∃ r, _s_geq_ true (tagged 2 [104, 105]) (tagged 4 [104, 200, 33, 33]) = some r ∧
      _s_geq_ true
        ⟨(tagged 2 [104, 105]).view.take
          (min [(104 : Byte), 105].length [(104 : Byte), 200, 33, 33].length + 1), 0⟩
        ⟨(tagged 4 [104, 200, 33, 33]).view.take
          (min [(104 : Byte), 105].length [(104 : Byte), 200, 33, 33].length + 1), 0⟩ = some r)) :=
  ⟨by decide, by decide,
    comparisons_bounded_reads true (tagged 2 [104, 105]) (tagged 4 [104, 200, 33, 33])
      [104, 105] [104, 200, 33, 33] (by decide) (by decide)⟩

/-! ## Consistency of the six comparisons -/

theorem cmpResult_not (sc lt gt eq : Bool) (as bs : List Byte) :
    cmpResult sc (!lt) (!gt) (!eq) as bs = !cmpResult sc lt gt eq as bs := by
  unfold cmpResult
  split_ifs <;> rfl

theorem cmpResult_swap (sc : Bool) (as bs : List Byte) :
    cmpResult sc true false false bs as = cmpResult sc false true false as bs := by
  unfold cmpResult
  cases h1 : lexLt (charVal sc) (as ++ [0]) (bs ++ [0]) <;>
    cases h2 : lexLt (charVal sc) (bs ++ [0]) (as ++ [0]) <;> simp
  have := lexLt_asymm _ _ _ h1
  rw [h2] at this
  exact Bool.noConfusion this

/-- C20: on null-terminated strings the six loops agree with each other:
`_s_neq_` is the negation of `_s_equal_`, `_s_leq_` the negation of
`_s_greater_`, `_s_geq_` the negation of `_s_less_`, and `_s_greater_(a, b)` is
`_s_less_(b, a)`. -/
theorem comparisons_consistent (sc : Bool) (a b : Ptr) (as bs : List Byte)
    (ha : CStr a as) (hb : CStr b bs) :
    ∃ e l g : Bool,
      _s_equal_ sc a b = some e ∧ _s_neq_ sc a b = some (!e) ∧
      _s_greater_ sc a b = some g ∧ _s_leq_ sc a b = some (!g) ∧
      _s_less_ sc a b = some l ∧ _s_geq_ sc a b = some (!l) ∧
      _s_less_ sc b a = some g := by
  obtain ⟨h1, h2, h3, h4, h5, h6⟩ := @s_cmp_eq sc _ _ _ _ ha hb
  obtain ⟨_, _, k3, _, _, _⟩ := @s_cmp_eq sc _ _ _ _ hb ha
  refine ⟨_, _, _, h1, ?_, h5, ?_, h3, ?_, ?_⟩
  · rw [h2, ← cmpResult_not]; rfl
  · rw [h4, ← cmpResult_not]; rfl
  · rw [h6, ← cmpResult_not]; rfl
  · rw [k3, cmpResult_swap]

theorem comparisons_consistent_witness :
    CStr (tagged 2 [104, 105]) [104, 105] ∧ CStr (tagged 2 [104, 200]) [104, 200] ∧
    ∃ e l g : Bool,
      _s_equal_ true (tagged 2 [104, 105]) (tagged 2 [104, 200]) = some e ∧
      _s_neq_ true (tagged 2 [104, 105]) (tagged 2 [104, 200]) = some (!e) ∧
      _s_greater_ true (tagged 2 [104, 105]) (tagged 2 [104, 200]) = some g ∧
      _s_leq_ true (tagged 2 [104, 105]) (tagged 2 [104, 200]) = some (!g) ∧
      _s_less_ true (tagged 2 [104, 105]) (tagged 2 [104, 200]) = some l ∧
      _s_geq_ true (tagged 2 [104, 105]) (tagged 2 [104, 200]) = some (!l) ∧
      _s_less_ true (tagged 2 [104, 200]) (tagged 2 [104, 105]) = some g :=
  ⟨by decide, by decide,
    comparisons_consistent true (tagged 2 [104, 105]) (tagged 2 [104, 200]) [104, 105] [104, 200]
      (by decide) (by decide)⟩

/-! ## Header words anywhere in a block -/

theorem store32_mid (pre post : List Cell) (c0 c1 c2 c3 : Cell) (off i v : Int)
    (h : off + i = (pre.length : Int)) :
    Ptr.store32 ⟨pre ++ c0 :: c1 :: c2 :: c3 :: post, off⟩ i v
      = some ⟨pre ++ (header v ++ post), off⟩ := by
  have e1 : off + (i + 1) = ((pre ++ [some (toByte v)]).length : Int) := by
    simp; omega
  have e2 : off + (i + 2)
      = ((pre ++ [some (toByte v)] ++ [some (toByte (v / 256))]).length : Int) := by
    simp; omega
  have e3 : off + (i + 3)
      = ((pre ++ [some (toByte v)] ++ [some (toByte (v / 256))]
          ++ [some (toByte (v / 65536))]).length : Int) := by
    simp; omega
  simp only [Ptr.store32, Option.bind_eq_bind]
  rw [store_mid pre _ c0 off i _ h, bind_some_eq,
    List.append_cons pre (some (toByte v)) (c1 :: c2 :: c3 :: post),
    store_mid _ _ c1 off (i + 1) _ e1, bind_some_eq,
    List.append_cons _ (some (toByte (v / 256))) (c2 :: c3 :: post),
    store_mid _ _ c2 off (i + 2) _ e2, bind_some_eq,
    List.append_cons _ (some (toByte (v / 65536))) (c3 :: post),
    store_mid _ _ c3 off (i + 3) _ e3]
  simp [header]

theorem load32_mid (pre post : List Cell) (off i v : Int)
    (h : off + i = (pre.length : Int)) (h1 : -2147483648 ≤ v) (h2 : v ≤ 2147483647) :
    Ptr.load32 ⟨pre ++ (header v ++ post), off⟩ i = some v := by
  have e1 : off + (i + 1) = ((pre ++ [some (toByte v)]).length : Int) := by
    simp; omega
  have e2 : off + (i + 2)
      = ((pre ++ [some (toByte v)] ++ [some (toByte (v / 256))]).length : Int) := by
    simp; omega
  have e3 : off + (i + 3)
      = ((pre ++ [some (toByte v)] ++ [some (toByte (v / 256))]
          ++ [some (toByte (v / 65536))]).length : Int) := by
    simp; omega
  have l0 := load_mid pre (some (toByte (v / 256)) :: some (toByte (v / 65536)) ::
    some (toByte (v / 16777216)) :: post) (some (toByte v)) off i h
  have l1 := load_mid (pre ++ [some (toByte v)]) (some (toByte (v / 65536)) ::
    some (toByte (v / 16777216)) :: post) (some (toByte (v / 256))) off (i + 1) e1
  have l2 := load_mid (pre ++ [some (toByte v)] ++ [some (toByte (v / 256))])
    (some (toByte (v / 16777216)) :: post) (some (toByte (v / 65536))) off (i + 2) e2
  have l3 := load_mid (pre ++ [some (toByte v)] ++ [some (toByte (v / 256))]
    ++ [some (toByte (v / 65536))]) post (some (toByte (v / 16777216))) off (i + 3) e3
  simp only [List.append_assoc, List.singleton_append, List.cons_append, List.nil_append]
    at l1 l2 l3
  simp only [Ptr.load32, header, List.cons_append, List.nil_append, Option.bind_eq_bind, l0, l1,
    l2, l3, bind_some_eq]
  rw [decode_encode v h1 h2]

/-! ## `_malloc_a_` and `_a_size_` -/

theorem malloc_a_spec (size length : Int) (h0 : 0 ≤ size) (h1 : size + 4 ≤ 2147483647) :
    _malloc_a_ size length = some ⟨header length ++ List.replicate size.toNat none, 4⟩ := by
  have hw : wrap32 (size + 4) = size + 4 := wrap32_of_range _ (by omega) h1
  have hz : 0 ≤ size + 4 := by omega
  have hn : (size + 4).toNat = size.toNat + 4 := by omega
  have hst := store32_mid [] (List.replicate size.toNat none) none none none none 0 0 length
    (by simp)
  simp only [List.nil_append] at hst
  simp only [_malloc_a_, hw, malloc, hz, if_true, hn, List.replicate_succ, Option.bind_eq_bind,
    bind_some_eq, hst, Ptr.add, Int.zero_add]

theorem malloc_a_some (size length : Int) (p : Ptr) (h : _malloc_a_ size length = some p) :
    ∃ rest, p = ⟨header length ++ rest, 4⟩ := by
  unfold _malloc_a_ at h
  generalize wrap32 (size + 4) = z at h
  unfold malloc at h
  by_cases hz : 0 ≤ z
  · rw [if_pos hz] at h
    generalize z.toNat = k at h
    simp only [Option.bind_eq_bind, bind_some_eq] at h
    match k, h with
    | 0, h => simp [Ptr.store32, Ptr.store] at h
    | 1, h => simp [Ptr.store32, Ptr.store] at h
    | 2, h => simp [Ptr.store32, Ptr.store] at h
    | 3, h => simp [Ptr.store32, Ptr.store] at h
    | k + 4, h =>
      have hst := store32_mid [] (List.replicate k none) none none none none 0 0 length (by simp)
      simp only [List.nil_append] at hst
      simp only [List.replicate_succ, hst, bind_some_eq, Ptr.add, Int.zero_add,
        Option.some.injEq] at h
      exact ⟨_, h.symm⟩
  · rw [if_neg hz] at h
    simp at h

/-- C14: whenever `_malloc_a_(size, length)` yields a buffer, for whatever byte
size, `_a_size_` of it is `length`; it does yield one for every byte size from
0 to `INT_MAX - 4`; and on every pointer `_a_size_` and `_s_length_` read the
same word at `p - 4`. -/
theorem a_size_malloc_a (size length : Int) (h1 : -2147483648 ≤ length)
    (h2 : length ≤ 2147483647) :
    (∀ p, _malloc_a_ size length = some p → _a_size_ p = some length) ∧
    (0 ≤ size → size + 4 ≤ INT_MAX →
      ∃ p, _malloc_a_ size length = some p ∧ _a_size_ p = some length) ∧
    (∀ p : Ptr, _a_size_ p = _s_length_ p) := by
  refine ⟨?_, ?_, fun p => rfl⟩
  · intro p hp
    obtain ⟨rest, rfl⟩ := malloc_a_some size length p hp
    exact load32_front rest length h1 h2
  · intro h0 h4
    exact ⟨_, malloc_a_spec size length h0 h4, load32_front _ length h1 h2⟩

theorem a_size_malloc_a_witness :
    (-2147483648 : Int) ≤ 10 ∧ (10 : Int) ≤ 2147483647 ∧
    ((∀ p, _malloc_a_ 40 10 = some p → _a_size_ p = some 10) ∧
    ((0 : Int) ≤ 40 → (40 : Int) + 4 ≤ INT_MAX →
      ∃ p, _malloc_a_ 40 10 = some p ∧ _a_size_ p = some 10) ∧
    (∀ p : Ptr, _a_size_ p = _s_length_ p)) :=
  ⟨by decide, by decide, a_size_malloc_a 40 10 (by decide) (by decide)⟩

/-! ## `_get_s_` -/

theorem dropWhile_token (tl : List Byte) (b : Byte) (hb : isspace b = false) :
    ∀ pre : List Byte, (∀ x ∈ pre, isspace x = true) →
      (pre ++ b :: tl).dropWhile isspace = b :: tl
  | [], _ => by simp [List.dropWhile, hb]
  | x :: pre, h => by
    have hx := h x (List.mem_cons_self _ _)
    have ih := dropWhile_token tl b hb pre (fun y hy => h y (List.mem_cons_of_mem _ hy))
    simp only [List.cons_append, List.dropWhile, hx] at ih ⊢
    exact ih

theorem scanf_store_spec (rest : List Byte)
    (hrest : rest = [] ∨ ∃ c r, rest = c :: r ∧ isspace c = true) :
    ∀ (w : List Byte) (k : Int) (pre post : List Cell) (off : Int),
    (∀ b ∈ w, isspace b = false) → off + k = (pre.length : Int) →
    scanf_store ⟨pre ++ (List.replicate w.length none ++ none :: post), off⟩ k (w ++ rest)
      = some (⟨pre ++ (w.map some ++ some 0 :: post), off⟩, rest)
  | [], k, pre, post, off, _, ho => by
    simp only [List.length_nil, List.replicate_zero, List.map_nil, List.nil_append]
    rcases hrest with rfl | ⟨c, r, rfl, hc⟩
    · simp only [scanf_store, store_mid pre post none off k 0 ho, Option.map_some']
    · simp only [scanf_store, hc, if_true, store_mid pre post none off k 0 ho, Option.map_some']
  | b :: w, k, pre, post, off, hw, ho => by
    have hb := hw b (List.mem_cons_self _ _)
    have ih := scanf_store_spec rest hrest w (k + 1) (pre ++ [some b]) post off
      (fun x hx => hw x (List.mem_cons_of_mem _ hx)) (by simp; omega)
    simp only [List.length_cons, List.map_cons, List.cons_append, scanf_store, hb,
      List.replicate_succ, Option.bind_eq_bind]
    rw [if_neg (by simp), store_mid pre _ none off k b ho, bind_some_eq]
    simpa using ih

theorem malloc_261 (n : Nat) (h : n ≤ 256) :
    malloc 261 = some ⟨none :: none :: none :: none ::
      (List.replicate n none ++ none :: List.replicate (256 - n) none), 0⟩ := by
  have e : (261 : Int).toNat = 4 + (n + (1 + (256 - n))) := by
    have : (261 : Int).toNat = 261 := rfl
    omega
  simp only [malloc, e, List.replicate_add]
  rfl

theorem strlen_of_cstr {p : Ptr} {bs : List Byte} (h : p.cstr = some bs) :
    strlen p = some (bs.length : Int) := by
  simp [strlen, h]

theorem get_s_spec (pre w rest : List Byte) (b : Byte)
    (hpre : ∀ x ∈ pre, isspace x = true) (hlen : (b :: w).length ≤ 256)
    (hw : ∀ x ∈ b :: w, isspace x = false ∧ x ≠ 0)
    (hrest : rest = [] ∨ ∃ c r, rest = c :: r ∧ isspace c = true) :
    _get_s_ (pre ++ (b :: w ++ rest))
      = some (⟨header ((b :: w).length : Int)
          ++ ((b :: w).map some ++ some 0 :: List.replicate (256 - (b :: w).length) none), 4⟩,
        rest) := by
  have hb := (hw b (List.mem_cons_self _ _)).1
  have hst := scanf_store_spec rest hrest (b :: w) 0 [none, none, none, none]
    (List.replicate (256 - (b :: w).length) none) 4 (fun x hx => (hw x hx).1) (by simp)
  have hc : CStr ⟨[none, none, none, none] ++ ((b :: w).map some
      ++ some 0 :: List.replicate (256 - (b :: w).length) none), ((4 : Nat) : Int)⟩ (b :: w) :=
    CStr.of_layout [none, none, none, none] _ (b :: w) (fun x hx => (hw x hx).2)
  have hsl := strlen_of_cstr hc
  have hwr : wrap32 ((b :: w).length : Int) = ((b :: w).length : Int) :=
    wrap32_of_range _ (by omega) (by omega)
  simp only [_get_s_, malloc_261 (b :: w).length hlen, Ptr.add, Int.zero_add, scanf_s,
    List.cons_append, dropWhile_token (w ++ rest) b hb pre hpre, Option.bind_eq_bind, bind_some_eq]
  simp only [List.cons_append, List.nil_append] at hst hsl
  rw [hst, bind_some_eq]
  simp only [Nat.cast_ofNat] at hsl
  rw [hsl, bind_some_eq, hwr, store32_front, bind_some_eq]

/-- C15: when the next token `w` of the input has 1 to 256 bytes, none of them
white space or zero, `_get_s_` returns a buffer whose payload is `w` followed
by the terminator and whose header is the length of `w`; token and terminator
lie inside the 261-byte block, after the 4 header bytes.  For the input `hello`
the length is 5 and the first character is 104. -/
theorem get_s_token (sc : Bool) (pre w rest : List Byte)
    (hpre : ∀ x ∈ pre, isspace x = true)
    (hw1 : 1 ≤ w.length) (hw2 : w.length ≤ 256)
    (hw : ∀ x ∈ w, isspace x = false ∧ x ≠ 0)
    (hrest : rest = [] ∨ ∃ c r, rest = c :: r ∧ isspace c = true) :
    (∃ p, _get_s_ (pre ++ (w ++ rest)) = some (p, rest) ∧
      p.cstr = some w ∧ _s_length_ p = some (w.length : Int) ∧
      (∀ (i : Nat) (hi : i < w.length), p.load i = some (w.get ⟨i, hi⟩)) ∧
      p.load w.length = some 0 ∧
      p.blk.length = 261 ∧ p.off = 4 ∧ p.off + (w.length : Int) + 1 ≤ 261) ∧
    (_get_s_ [104, 101, 108, 108, 111]).bind (fun r => _s_length_ r.1) = some 5 ∧
    (_get_s_ [104, 101, 108, 108, 111]).bind (fun r => _s_ord_ sc r.1 0) = some 104 := by
  refine ⟨?_, ?_, ?_⟩
  rotate_left
  · set_option maxRecDepth 100000 in decide
  · cases sc <;> set_option maxRecDepth 100000 in decide
  match w, hw1, hw2, hw with
  | b :: w, _, hw2, hw =>
    have hnz : ∀ x ∈ b :: w, x ≠ 0 := fun x hx => (hw x hx).2
    refine ⟨_, get_s_spec pre w rest b hpre hw2 hw hrest, ?_, ?_, ?_, ?_, ?_, rfl, ?_⟩
    · exact CStr.of_layout (header ((b :: w).length : Int)) _ (b :: w) hnz
    · exact load32_front _ _ (by omega) (by omega)
    · intro i hi
      exact layout_load (header ((b :: w).length : Int)) _ (b :: w) 4 i i hi (by simp [header])
    · exact layout_load_end (header ((b :: w).length : Int)) _ (b :: w) 4 _ (by simp [header])
    · simp only [header, List.length_append, List.length_cons, List.length_map,
        List.length_replicate, List.length_nil] at hw2 ⊢
      omega
    · show (4 : Int) + ((b :: w).length : Int) + 1 ≤ 261
      omega

theorem get_s_token_witness :
    (∀ x ∈ [(32 : Byte), 10], isspace x = true) ∧
    1 ≤ [(77 : Byte), 120].length ∧ [(77 : Byte), 120].length ≤ 256 ∧
    (∀ x ∈ [(77 : Byte), 120], isspace x = false ∧ x ≠ 0) ∧
    ([(10 : Byte), 65] = [] ∨ ∃ c r, [(10 : Byte), 65] = c :: r ∧ isspace c = true) ∧
    ((∃ p, _get_s_ ([32, 10] ++ ([77, 120] ++ [10, 65])) = some (p, [10, 65]) ∧
      p.cstr = some [77, 120] ∧ _s_length_ p = some ([(77 : Byte), 120].length : Int) ∧
      (∀ (i : Nat) (hi : i < [(77 : Byte), 120].length),
        p.load i = some ([(77 : Byte), 120].get ⟨i, hi⟩)) ∧
      p.load [(77 : Byte), 120].length = some 0 ∧
      p.blk.length = 261 ∧ p.off = 4 ∧ p.off + ([(77 : Byte), 120].length : Int) + 1 ≤ 261) ∧
    (_get_s_ [104, 101, 108, 108, 111]).bind (fun r => _s_length_ r.1) = some 5 ∧
    (_get_s_ [104, 101, 108, 108, 111]).bind (fun r => _s_ord_ true r.1 0) = some 104) :=
  ⟨by intro x hx; simp only [List.mem_cons, List.mem_singleton, List.not_mem_nil, or_false] at hx
      rcases hx with rfl | rfl <;> decide,
    by decide, by decide,
    by intro x hx; simp only [List.mem_cons, List.mem_singleton, List.not_mem_nil, or_false] at hx
       rcases hx with rfl | rfl <;> decide,
    Or.inr ⟨10, [65], rfl, by decide⟩,
    get_s_token true [32, 10] [77, 120] [10, 65]
      (by intro x hx; simp only [List.mem_cons, List.mem_singleton, List.not_mem_nil, or_false] at hx
          rcases hx with rfl | rfl <;> decide)
      (by decide) (by decide)
      (by intro x hx; simp only [List.mem_cons, List.mem_singleton, List.not_mem_nil, or_false] at hx
          rcases hx with rfl | rfl <;> decide)
      (Or.inr ⟨10, [65], rfl, by decide⟩)⟩

/-! ## The digits written by `_to_str_` -/

theorem digitChar_byte (d : Nat) (h : d < 10) :
    (Fin.ofNat (Nat.digitChar d).toNat : Byte) = toByte ((d : Int) + 48) := by
  interval_cases d <;> decide

theorem toDigitsCore_digits : ∀ (fuel n : Nat) (acc : List Char), 0 < n → n < fuel →
    Nat.toDigitsCore 10 fuel n acc = ((Nat.digits 10 n).reverse.map Nat.digitChar) ++ acc
  | 0, _, _, _, h => absurd h (Nat.not_lt_zero _)
  | fuel + 1, n, acc, hn, hf => by
    have hd : Nat.digits 10 n = (n % 10) :: Nat.digits 10 (n / 10) :=
      Nat.digits_def' (by decide) hn
    simp only [Nat.toDigitsCore]
    by_cases h0 : n / 10 = 0
    · simp [h0, hd]
    · have ih := toDigitsCore_digits fuel (n / 10) (Nat.digitChar (n % 10) :: acc)
        (Nat.pos_of_ne_zero h0) (by omega)
      simp [h0, ih, hd]

theorem digits_length_le : ∀ (k n : Nat), n < 10 ^ k → (Nat.digits 10 n).length ≤ k
  | 0, n, h => by
    have : n = 0 := by simpa using h
    simp [this]
  | k + 1, n, h => by
    by_cases hn : n = 0
    · simp [hn]
    · have hd : Nat.digits 10 n = (n % 10) :: Nat.digits 10 (n / 10) :=
        Nat.digits_def' (by decide) (Nat.pos_of_ne_zero hn)
      have ih := digits_length_le k (n / 10) (by rw [pow_succ] at h; omega)
      rw [hd, List.length_cons]
      omega

theorem decimal_pos (n : Int) (h : 0 < n) :
    decimal n = (Nat.digits 10 n.natAbs).reverse.map (fun (d : Nat) => toByte ((d : Int) + 48)) := by
  have hm : 0 < n.natAbs := by omega
  have hneg : ¬ n < 0 := by omega
  unfold decimal Nat.toDigits
  rw [if_neg hneg, toDigitsCore_digits _ _ _ hm (Nat.lt_succ_self _)]
  simp only [List.nil_append, List.append_nil, List.map_map, List.map_reverse]
  congr 1
  apply List.map_congr_left
  intro d hd
  exact digitChar_byte d (Nat.digits_lt_base (by decide) hd)

theorem decimal_neg (n : Int) (h : n < 0) :
    decimal n
      = 45 :: (Nat.digits 10 n.natAbs).reverse.map (fun (d : Nat) => toByte ((d : Int) + 48)) := by
  have hm : 0 < n.natAbs := by omega
  unfold decimal Nat.toDigits
  rw [if_pos h, toDigitsCore_digits _ _ _ hm (Nat.lt_succ_self _)]
  simp only [List.singleton_append, List.append_nil, List.map_map, List.map_reverse]
  congr 2
  apply List.map_congr_left
  intro d hd
  exact digitChar_byte d (Nat.digits_lt_base (by decide) hd)

theorem digit_byte_ne_zero (d : Nat) (h : d < 10) : toByte ((d : Int) + 48) ≠ 0 := by
  interval_cases d <;> decide

theorem to_str_digits_spec : ∀ (fuel n : Nat) (A R : List Cell), n ≤ fuel →
    (Nat.digits 10 n).length ≤ A.length →
    to_str_digits fuel (n : Int) ⟨A ++ R, (A.length : Int)⟩
      = some ⟨A.take (A.length - (Nat.digits 10 n).length)
          ++ ((Nat.digits 10 n).reverse.map (fun (d : Nat) => some (toByte ((d : Int) + 48))) ++ R),
        ((A.length - (Nat.digits 10 n).length : Nat) : Int)⟩
  | 0, n, A, R, hf, _ => by
    have : n = 0 := by omega
    subst this
    simp [to_str_digits]
  | fuel + 1, n, A, R, hf, hA => by
    by_cases hn : n = 0
    · subst hn
      simp [to_str_digits]
    · have hpos : 0 < n := Nat.pos_of_ne_zero hn
      have hd : Nat.digits 10 n = (n % 10) :: Nat.digits 10 (n / 10) :=
        Nat.digits_def' (by decide) hpos
      rw [hd, List.length_cons] at hA
      have hne : A ≠ [] := by
        intro h; rw [h] at hA; simp at hA
      obtain ⟨A', c, rfl⟩ : ∃ A' c, A = A' ++ [c] :=
        ⟨A.dropLast, A.getLast hne, (List.dropLast_append_getLast hne).symm⟩
      rw [List.length_append, List.length_singleton] at hA
      have hni : ¬ ((n : Int) = 0) := by omega
      have ih := to_str_digits_spec fuel (n / 10) A'
        (some (toByte (((n % 10 : Nat) : Int) + 48)) :: R) (by omega) (by omega)
      have hst := store_mid A' R c ((((A' ++ [c]).length : Nat) : Int) + -1) 0
        (toByte (((n % 10 : Nat) : Int) + 48)) (by simp)
      have hk : (A' ++ [c]).length - ((Nat.digits 10 (n / 10)).length + 1)
          = A'.length - (Nat.digits 10 (n / 10)).length := by
        rw [List.length_append, List.length_singleton]; omega
      simp only [to_str_digits, hni, if_false, Ptr.add, Option.bind_eq_bind,
        ← Int.ofNat_tmod, ← Int.ofNat_tdiv, List.append_assoc, List.singleton_append]
      rw [show ((10 : Int)) = ((10 : Nat) : Int) from rfl, ← Int.ofNat_tmod, ← Int.ofNat_tdiv,
        hst, bind_some_eq]
      have e : (((A' ++ [c]).length : Nat) : Int) + -1 = (A'.length : Int) := by simp
      rw [e, ih, hd, List.length_cons, hk,
        List.take_append_of_le_length (Nat.sub_le _ _)]
      simp

theorem to_str_digits_init (m : Nat) (hL : (Nat.digits 10 m).length ≤ 14) :
    to_str_digits m (m : Int) ⟨List.replicate 14 none ++ [some 0], 14⟩
      = some ⟨List.replicate (14 - (Nat.digits 10 m).length) none
          ++ (((Nat.digits 10 m).reverse.map (fun (d : Nat) => toByte ((d : Int) + 48))).map some
            ++ [some 0]),
        ((14 - (Nat.digits 10 m).length : Nat) : Int)⟩ := by
  have h := to_str_digits_spec m m (List.replicate 14 none) [some 0] (le_refl _)
    (by simpa using hL)
  simp only [List.length_replicate, List.take_replicate, Nat.cast_ofNat, List.map_map] at h ⊢
  rw [h, Nat.min_eq_left (Nat.sub_le _ _)]
  rfl

theorem to_str_fill_pos (m : Nat) (hm : 0 < m) (hL : (Nat.digits 10 m).length ≤ 14) :
    _to_str_fill (m : Int)
      = some (⟨List.replicate (14 - (Nat.digits 10 m).length) none
          ++ (((Nat.digits 10 m).reverse.map (fun (d : Nat) => toByte ((d : Int) + 48))).map some
            ++ [some 0]),
        ((14 - (Nat.digits 10 m).length : Nat) : Int)⟩,
        ⟨List.replicate 14 none ++ [some 0], 14⟩) := by
  have hmal : malloc 15 = some ⟨List.replicate 15 none, 0⟩ := by decide
  have hst : Ptr.store ⟨List.replicate 15 none, 0 + 15 + -1⟩ 0 0
      = some ⟨List.replicate 14 none ++ [some 0], 14⟩ := by decide
  have hneg : ¬ ((m : Int) < 0) := by omega
  have hz : ¬ ((m : Int) = 0) := by omega
  simp only [_to_str_fill, hmal, Option.bind_eq_bind, bind_some_eq, Ptr.add, hst, hneg,
    decide_False, Bool.false_eq_true, if_false, hz, Int.natAbs_ofNat,
    to_str_digits_init m hL]

theorem to_str_fill_neg (m : Nat) (hm : 0 < m) (hb : (m : Int) ≤ 2147483647)
    (hL : (Nat.digits 10 m).length ≤ 13) :
    _to_str_fill (-(m : Int))
      = some (⟨List.replicate (13 - (Nat.digits 10 m).length) none
          ++ ((45 :: (Nat.digits 10 m).reverse.map
              (fun (d : Nat) => toByte ((d : Int) + 48))).map some
            ++ [some 0]),
        ((13 - (Nat.digits 10 m).length : Nat) : Int)⟩,
        ⟨List.replicate 14 none ++ [some 0], 14⟩) := by
  have hmal : malloc 15 = some ⟨List.replicate 15 none, 0⟩ := by decide
  have hst : Ptr.store ⟨List.replicate 15 none, 0 + 15 + -1⟩ 0 0
      = some ⟨List.replicate 14 none ++ [some 0], 14⟩ := by decide
  have hneg : (-(m : Int) < 0) := by omega
  have hw : wrap32 (- -(m : Int)) = (m : Int) := by
    rw [neg_neg]; exact wrap32_of_range _ (by omega) hb
  have hz : ¬ ((m : Int) = 0) := by omega
  have hrep : List.replicate (14 - (Nat.digits 10 m).length) (none : Cell)
      = List.replicate (13 - (Nat.digits 10 m).length) none ++ [none] := by
    rw [← List.replicate_succ']
    congr 1
    omega
  have hsign := store_mid (List.replicate (13 - (Nat.digits 10 m).length) none)
    (((Nat.digits 10 m).reverse.map (fun (d : Nat) => toByte ((d : Int) + 48))).map some
      ++ [some 0]) none (((14 - (Nat.digits 10 m).length : Nat) : Int) + -1) 0 45
    (by simp; omega)
  simp only [_to_str_fill, hmal, Option.bind_eq_bind, bind_some_eq, Ptr.add, hst, hneg,
    decide_True, if_true, hw, hz, if_false, Int.natAbs_ofNat, to_str_digits_init m (by omega),
    hrep, List.append_assoc, List.singleton_append, hsign]
  have e : ((14 - (Nat.digits 10 m).length : Nat) : Int) + -1
      = ((13 - (Nat.digits 10 m).length : Nat) : Int) := by omega
  rw [e]
  rfl

/-! ## What `_to_str_` returns away from the ten-digit negatives -/

theorem tstr_of_block (k : Nat) (bs : List Byte) (off : Int) (hnz : ∀ b ∈ bs, b ≠ 0)
    (ho : off = (k : Int) + 4) (hb : (k : Int) + 4 + bs.length + 1 ≤ 2147483647) :
    TStr ⟨List.replicate k none ++ (header (bs.length : Int) ++ (bs.map some ++ [some 0])), off⟩
      bs := by
  subst ho
  refine ⟨?_, ?_, ?_⟩
  · simp only [INT_MAX, header, List.length_append, List.length_replicate, List.length_cons,
      List.length_map, List.length_nil]
    push_cast
    omega
  · exact load32_mid (List.replicate k none) _ _ (-4) _ (by simp) (by omega) (by omega)
  · have h := CStr.of_layout (List.replicate k none ++ header (bs.length : Int)) [] bs hnz
    simp only [List.append_assoc, List.length_append, List.length_replicate, header,
      List.length_cons, List.length_nil] at h
    simp only [header]
    push_cast at h
    exact h

theorem to_str_pos_spec (m : Nat) (hm : 0 < m) (hL : (Nat.digits 10 m).length ≤ 10) :
    _to_str_ (m : Int)
      = some ⟨List.replicate (10 - (Nat.digits 10 m).length) none
          ++ (header ((Nat.digits 10 m).length : Int)
            ++ (((Nat.digits 10 m).reverse.map
                (fun (d : Nat) => toByte ((d : Int) + 48))).map some ++ [some 0])),
        ((14 - (Nat.digits 10 m).length : Nat) : Int)⟩ := by
  have hrep : List.replicate (14 - (Nat.digits 10 m).length) (none : Cell)
      = List.replicate (10 - (Nat.digits 10 m).length) none ++ [none, none, none, none] := by
    have e : 14 - (Nat.digits 10 m).length = (10 - (Nat.digits 10 m).length) + 4 := by omega
    rw [e, List.replicate_add]
    rfl
  have hv : (14 : Int) - ((14 - (Nat.digits 10 m).length : Nat) : Int)
      = ((Nat.digits 10 m).length : Int) := by omega
  have hst := store32_mid (List.replicate (10 - (Nat.digits 10 m).length) none)
    (((Nat.digits 10 m).reverse.map (fun (d : Nat) => toByte ((d : Int) + 48))).map some
      ++ [some 0]) none none none none ((14 - (Nat.digits 10 m).length : Nat) : Int) (-4)
    ((Nat.digits 10 m).length : Int) (by simp; omega)
  simp only [_to_str_, to_str_fill_pos m hm (by omega), Option.bind_eq_bind, bind_some_eq, hv,
    hrep, List.append_assoc, List.cons_append, List.nil_append, hst]

theorem to_str_neg_spec (m : Nat) (hm : 0 < m) (hb : (m : Int) ≤ 2147483647)
    (hL : (Nat.digits 10 m).length ≤ 9) :
    _to_str_ (-(m : Int))
      = some ⟨List.replicate (9 - (Nat.digits 10 m).length) none
          ++ (header (((Nat.digits 10 m).length : Int) + 1)
            ++ ((45 :: (Nat.digits 10 m).reverse.map
                (fun (d : Nat) => toByte ((d : Int) + 48))).map some ++ [some 0])),
        ((13 - (Nat.digits 10 m).length : Nat) : Int)⟩ := by
  have hrep : List.replicate (13 - (Nat.digits 10 m).length) (none : Cell)
      = List.replicate (9 - (Nat.digits 10 m).length) none ++ [none, none, none, none] := by
    have e : 13 - (Nat.digits 10 m).length = (9 - (Nat.digits 10 m).length) + 4 := by omega
    rw [e, List.replicate_add]
    rfl
  have hv : (14 : Int) - ((13 - (Nat.digits 10 m).length : Nat) : Int)
      = ((Nat.digits 10 m).length : Int) + 1 := by omega
  have hst := store32_mid (List.replicate (9 - (Nat.digits 10 m).length) none)
    ((45 :: (Nat.digits 10 m).reverse.map (fun (d : Nat) => toByte ((d : Int) + 48))).map some
      ++ [some 0]) none none none none ((13 - (Nat.digits 10 m).length : Nat) : Int) (-4)
    (((Nat.digits 10 m).length : Int) + 1) (by simp; omega)
  simp only [_to_str_, to_str_fill_neg m hm hb (by omega), Option.bind_eq_bind, bind_some_eq, hv,
    hrep, List.append_assoc, List.cons_append, List.nil_append, hst]

theorem digit_bytes_ne_zero (m : Nat) :
    ∀ b ∈ (Nat.digits 10 m).reverse.map (fun (d : Nat) => toByte ((d : Int) + 48)), b ≠ 0 := by
  intro b hb
  obtain ⟨d, hd, rfl⟩ := List.mem_map.mp hb
  exact digit_byte_ne_zero d (Nat.digits_lt_base (by decide) (List.mem_reverse.mp hd))

/-- For `-1000000000 < n ≤ INT_MAX`, `_to_str_(n)` returns a string of the
runtime whose payload is the standard decimal formatting of `n`. -/
theorem to_str_tstr (n : Int) (h1 : -1000000000 < n) (h2 : n ≤ 2147483647) :
    ∃ ret, _to_str_ n = some ret ∧ TStr ret (decimal n) ∧ ret.blk.length = 15 := by
  rcases lt_trichotomy n 0 with hn | hn | hn
  · obtain ⟨m, rfl⟩ : ∃ m : Nat, n = -(m : Int) := ⟨n.natAbs, by omega⟩
    have hm : 0 < m := by omega
    have hL : (Nat.digits 10 m).length ≤ 9 := digits_length_le 9 m (by norm_num; omega)
    have hdec := decimal_neg (-(m : Int)) hn
    rw [Int.natAbs_neg, Int.natAbs_ofNat] at hdec
    refine ⟨_, to_str_neg_spec m hm (by omega) hL, ?_, ?_⟩
    · have ht := tstr_of_block (9 - (Nat.digits 10 m).length)
        (45 :: (Nat.digits 10 m).reverse.map (fun (d : Nat) => toByte ((d : Int) + 48)))
        ((13 - (Nat.digits 10 m).length : Nat) : Int)
        (by
          intro b hb
          rcases List.mem_cons.mp hb with rfl | hb
          · decide
          · exact digit_bytes_ne_zero m b hb)
        (by omega) (by simp; omega)
      rw [hdec]
      simpa using ht
    · simp [header]; omega
  · subst hn
    have h0 : _to_str_ 0 = some ⟨[none, none, none, none, none, none, none, none, none,
        some 1, some 0, some 0, some 0, some 48, some 0], 13⟩ := by decide
    exact ⟨_, h0, by decide, rfl⟩
  · obtain ⟨m, rfl⟩ : ∃ m : Nat, n = (m : Int) := ⟨n.toNat, by omega⟩
    have hm : 0 < m := by omega
    have hL : (Nat.digits 10 m).length ≤ 10 := digits_length_le 10 m (by norm_num; omega)
    have hdec := decimal_pos (m : Int) hn
    rw [Int.natAbs_ofNat] at hdec
    refine ⟨_, to_str_pos_spec m hm hL, ?_, ?_⟩
    · have ht := tstr_of_block (10 - (Nat.digits 10 m).length)
        ((Nat.digits 10 m).reverse.map (fun (d : Nat) => toByte ((d : Int) + 48)))
        ((14 - (Nat.digits 10 m).length : Nat) : Int) (digit_bytes_ne_zero m)
        (by omega) (by simp; omega)
      rw [hdec]
      simpa using ht
    · simp [header]; omega

/-! ## The length invariant -/

theorem substring_tstr (s : Ptr) (bs : List Byte) (l r : Int)
    (hs : TStr s bs) (h0 : 0 ≤ l) (h1 : l ≤ r) (h2 : r ≤ (bs.length : Int)) :
    ∃ ret, _s_substring_ s l r = some ret ∧ TStr ret ((bs.drop l.toNat).take (r - l).toNat) := by
  have hbound := hs.bound
  obtain ⟨_, _, _, hnz⟩ := CStr.layout hs.2.2
  have hlen : ((bs.drop l.toNat).take (r - l).toNat).length = (r - l).toNat := by
    rw [List.length_take, List.length_drop]; omega
  have hnz' : ∀ b ∈ (bs.drop l.toNat).take (r - l).toNat, b ≠ 0 :=
    fun b hb => hnz b (List.mem_of_mem_drop (List.mem_of_mem_take hb))
  have ht := tagged_tstr _ hnz' (by rw [hlen]; omega)
  have e : ((((bs.drop l.toNat).take (r - l).toNat).length : Nat) : Int) = r - l := by
    rw [hlen]; omega
  rw [e] at ht
  exact ⟨_, s_substring_spec hs.2.2 l r h0 h1 h2 (by omega), ht⟩

theorem concatenate_tstr (s t : Ptr) (bs bt : List Byte) (hs : TStr s bs) (ht : TStr t bt)
    (hb : (bs.length : Int) + bt.length + 5 ≤ 2147483647) :
    ∃ ret, _s_concatenate_ s t = some ret ∧ TStr ret (bs ++ bt) := by
  obtain ⟨_, _, _, hnzs⟩ := CStr.layout hs.2.2
  obtain ⟨_, _, _, hnzt⟩ := CStr.layout ht.2.2
  have hnz : ∀ b ∈ bs ++ bt, b ≠ 0 := by
    intro b hb'
    rcases List.mem_append.mp hb' with h | h
    · exact hnzs b h
    · exact hnzt b h
  have h := tagged_tstr (bs ++ bt) hnz (by simp; omega)
  have e : (((bs ++ bt).length : Nat) : Int) = (bs.length : Int) + bt.length := by simp
  rw [e] at h
  exact ⟨_, s_concatenate_spec hs.2.2 ht.2.2 hs.2.1 ht.2.1 hb, h⟩

theorem get_s_tstr (pre w rest : List Byte)
    (hpre : ∀ x ∈ pre, isspace x = true)
    (hw1 : 1 ≤ w.length) (hw2 : w.length ≤ 256)
    (hw : ∀ x ∈ w, isspace x = false ∧ x ≠ 0)
    (hrest : rest = [] ∨ ∃ c r, rest = c :: r ∧ isspace c = true) :
    ∃ ret, _get_s_ (pre ++ (w ++ rest)) = some (ret, rest) ∧ TStr ret w := by
  match w, hw1, hw2, hw with
  | b :: w, _, hw2, hw =>
    have hnz : ∀ x ∈ b :: w, x ≠ 0 := fun x hx => (hw x hx).2
    refine ⟨_, get_s_spec pre w rest b hpre hw2 hw hrest, ?_, ?_, ?_⟩
    · simp only [INT_MAX, header, List.length_append, List.length_cons, List.length_map,
        List.length_replicate, List.length_nil] at hw2 ⊢
      push_cast
      omega
    · exact load32_front _ _ (by omega) (by omega)
    · exact CStr.of_layout (header ((b :: w).length : Int)) _ (b :: w) hnz

/-- C12 fails as stated: `_s_literal_` called on the source `AB\0` with length
argument 5 returns a buffer whose header is 5 while two bytes precede its
terminator; and `_s_concatenate_` applied to a string of 1073741824 bytes (which
satisfies the invariant) and itself constructs no string at all. -/
theorem length_invariant_counterexample :
    ((_s_literal_ ⟨[some 65, some 66, some 0], 0⟩ 5).bind _s_length_ = some 5 ∧
      (_s_literal_ ⟨[some 65, some 66, some 0], 0⟩ 5).bind Ptr.cstr = some [65, 66]) ∧
    (TStr (tagged (1073741824 : Nat) (List.replicate 1073741824 65))
        (List.replicate 1073741824 65) ∧
      _s_concatenate_ (tagged (1073741824 : Nat) (List.replicate 1073741824 65))
        (tagged (1073741824 : Nat) (List.replicate 1073741824 65)) = none) :=
  ⟨by decide, replicate_tstr 1073741824 65 (by decide) (by decide), s_concatenate_overflow⟩

/-- C12 as amended: the header (`_s_length_`) equals the number of payload bytes
before the first terminator for every string that
`_s_literal_` builds from a null-terminated source of exactly `l` bytes with
`l + 5 ≤ INT_MAX`, that `_to_str_` builds from `n` with
`-1000000000 < n ≤ INT_MAX`, that `_s_substring_` builds for
`0 ≤ l ≤ r ≤ length`, that `_s_concatenate_` builds when the two lengths plus 5
stay within `INT_MAX`, and that `_get_s_` builds from a token of 1 to 256
bytes, none white space or zero; argument strings are assumed to satisfy the
invariant (`TStr`), and so does every result. -/
theorem length_invariant :
    (∀ (s : Ptr) (bs : List Byte), CStr s bs → (bs.length : Int) + 5 ≤ INT_MAX →
      ∃ ret, _s_literal_ s bs.length = some ret ∧ TStr ret bs) ∧
    (∀ n : Int, -1000000000 < n → n ≤ INT_MAX →
      ∃ ret, _to_str_ n = some ret ∧ TStr ret (decimal n)) ∧
    (∀ (s : Ptr) (bs : List Byte) (l r : Int), TStr s bs → 0 ≤ l → l ≤ r →
      r ≤ (bs.length : Int) →
      ∃ ret, _s_substring_ s l r = some ret ∧
        TStr ret ((bs.drop l.toNat).take (r - l).toNat)) ∧
    (∀ (s t : Ptr) (bs bt : List Byte), TStr s bs → TStr t bt →
      (bs.length : Int) + bt.length + 5 ≤ INT_MAX →
      ∃ ret, _s_concatenate_ s t = some ret ∧ TStr ret (bs ++ bt)) ∧
    (∀ pre w rest : List Byte, (∀ x ∈ pre, isspace x = true) →
      1 ≤ w.length → w.length ≤ 256 → (∀ x ∈ w, isspace x = false ∧ x ≠ 0) →
      (rest = [] ∨ ∃ c r, rest = c :: r ∧ isspace c = true) →
      ∃ ret, _get_s_ (pre ++ (w ++ rest)) = some (ret, rest) ∧ TStr ret w) ∧
    (∀ (p : Ptr) (bs : List Byte), TStr p bs →
      _s_length_ p = some (bs.length : Int) ∧ p.cstr = some bs) := by
  refine ⟨?_, ?_, substring_tstr, ?_, get_s_tstr, fun p bs h => ⟨h.2.1, h.2.2⟩⟩
  · intro s bs hs hb
    unfold INT_MAX at hb
    obtain ⟨_, _, _, hnz⟩ := hs.layout
    exact ⟨_, s_literal_spec hs hb, tagged_tstr bs hnz hb⟩
  · intro n h1 h2
    obtain ⟨ret, hr, ht, _⟩ := to_str_tstr n h1 h2
    exact ⟨ret, hr, ht⟩
  · intro s t bs bt hs ht hb
    exact concatenate_tstr s t bs bt hs ht hb

theorem length_invariant_witness :
    (∃ ret, _s_literal_ ⟨[some 104, some 105, some 0], 0⟩ ([(104 : Byte), 105].length : Nat)
        = some ret ∧ TStr ret [104, 105]) ∧
    (∃ ret, _to_str_ (-5) = some ret ∧ TStr ret (decimal (-5))) ∧
    (∃ ret, _s_substring_ (tagged 4 [77, 120, 42, 33]) 1 3 = some ret ∧
      TStr ret (([(77 : Byte), 120, 42, 33].drop (1 : Int).toNat).take ((3 : Int) - 1).toNat)) ∧
    (∃ ret, _s_concatenate_ (tagged 2 [104, 105]) (tagged 1 [33]) = some ret ∧
      TStr ret ([104, 105] ++ [33])) :=
  ⟨length_invariant.1 ⟨[some 104, some 105, some 0], 0⟩ [104, 105] (by decide) (by decide),
    length_invariant.2.1 (-5) (by decide) (by decide),
    length_invariant.2.2.1 (tagged 4 [77, 120, 42, 33]) [77, 120, 42, 33] 1 3
      (by decide) (by decide) (by decide) (by decide),
    length_invariant.2.2.2.1 (tagged 2 [104, 105]) (tagged 1 [33]) [104, 105] [33]
      (by decide) (by decide) (by decide)⟩

/-! ## `_to_str_` on ten-digit negatives -/

/-- C17, the code at `n = -1000000000`: the digits and the sign are laid out
correctly (`-1000000000`, 11 characters, starting at offset 3 of the 15-byte
block), but the header write at `s - 4` then starts at offset -1, outside the
block, so `_to_str_` has no defined result.  At `0` and `-5` the results are
`"0"` with length 1 and `"-5"` with length 2. -/
theorem to_str_ten_digit_negative :
    decimal (-1000000000) = [45, 49, 48, 48, 48, 48, 48, 48, 48, 48, 48] ∧
    (_to_str_fill (-1000000000)).bind (fun st => st.1.cstr)
      = some [45, 49, 48, 48, 48, 48, 48, 48, 48, 48, 48] ∧
    (_to_str_fill (-1000000000)).map (fun st => st.1.off) = some 3 ∧
    _to_str_ (-1000000000) = none ∧
    (_to_str_ 0).bind Ptr.cstr = some [48] ∧ (_to_str_ 0).bind _s_length_ = some 1 ∧
    (_to_str_ (-5)).bind Ptr.cstr = some [45, 53] ∧ (_to_str_ (-5)).bind _s_length_ = some 2 := by
  decide

/-- C18, the code at `n = -2147483647`: after the terminator, ten digits and
the sign the pointer `s` is at offset 3 of the 15-byte block, so the four
header bytes at `s - 4` start at offset -1; the first of these stores already
falls outside the block.  At `n = 2147483647` (ten digits, no sign) `s` is at
offset 4 and the header still fits. -/
theorem to_str_header_offset :
    (_to_str_fill (-2147483647)).map (fun st => (st.1.blk.length, st.1.off, st.1.off + -4))
      = some (15, 3, -1) ∧
    (_to_str_fill (-2147483647)).bind (fun st => st.1.store (-4) 11) = none ∧
    (_to_str_fill (-2147483647)).bind (fun st => st.1.store32 (-4) (st.2.off - st.1.off)) = none ∧
    (_to_str_fill 2147483647).map (fun st => (st.1.blk.length, st.1.off, st.1.off + -4))
      = some (15, 4, 0) := by
  decide

end MxBuiltin
